import Mathlib

/-!
Verification development for the Pulumi Go SDK's `rpc.go`: the dependency
aggregator (`addDependency` / `expandDependencies`), the input marshaling
engine (`marshalInputOptionsImpl` / `marshalInputsOptions`), the unmarshaling
engine (`unmarshalPropertyValue` / `unmarshalOutput` /
`unmarshalResourceReference`), the versioned registry (`versionedMap.Load`),
and the `Apply` combinator contract.

The Go code is shallowly embedded: reflective value dispatch becomes an
inductive of the value kinds the code handles, `map[URN]Resource` key sets
become insertion-ordered duplicate-free lists, machine floats that are only
injected (never computed with) become `Int`, and `contract.Assertf` panics
become a distinguished error constructor so they stay separate from returned
errors.  The reflective destination-type conversion machinery
(`CallToOutputMethod`, assignability coercions) and the Asset/Archive wire
variants are outside the scope of the verified claims and are not modelled.
-/

namespace PulumiRPC

/-- URNs are opaque unique strings. -/
abbrev URN := String

/-! ## Semantic versions and the versioned registry -/

/-- Shallow embedding of `semver.Version` restricted to the release triple
(pre-release and build metadata are not used by the registry claims). -/
structure SemVer where
  major : Nat
  minor : Nat
  patch : Nat
deriving DecidableEq, Repr

/-- `nullVersion` represents the wildcard version (match any version). -/
def nullVersion : SemVer := ⟨0, 0, 0⟩

/-- Lexicographic `LTE`/`GTE` comparison of `semver.Version` triples. -/
def SemVer.le (a b : SemVer) : Bool :=
  a.major < b.major ∨
    (a.major = b.major ∧
      (a.minor < b.minor ∨ (a.minor = b.minor ∧ a.patch ≤ b.patch)))

theorem SemVer.le_refl (a : SemVer) : a.le a = true := by
  simp [SemVer.le]

theorem SemVer.le_total (a b : SemVer) : a.le b = true ∨ b.le a = true := by
  simp only [SemVer.le, decide_eq_true_eq, Bool.or_eq_true, Bool.and_eq_true]
  omega

theorem SemVer.le_trans {a b c : SemVer} (h₁ : a.le b = true) (h₂ : b.le c = true) :
    a.le c = true := by
  simp only [SemVer.le, decide_eq_true_eq, Bool.or_eq_true, Bool.and_eq_true] at h₁ h₂ ⊢
  omega

/-- A registry entry: `Versioned` interface plus an opaque payload standing
for the registered constructor. -/
structure Versioned where
  version : SemVer
  payload : Nat
deriving DecidableEq, Repr

/-- Shallow embedding of `versionedMap`: the per-key entry lists (the
`sync.RWMutex` is not modelled; `Load` is a pure read). -/
structure versionedMap where
  versions : List (String × List Versioned)
deriving Repr

/-- Entries stored under `key` (`vm.versions[key]`, empty when absent). -/
def versionedMap.entriesFor (vm : versionedMap) (key : String) : List Versioned :=
  match vm.versions.find? (fun kv => kv.1 = key) with
  | some kv => kv.2
  | none => []

/-- The scan loop of `versionedMap.Load`: skip entries of the wrong major
version (unless wildcard), return the first exact version match with
`found=true`, otherwise keep the pairwise greatest-or-equal candidate. -/
def loadLoop (version : SemVer) (wildcard : Bool) :
    List Versioned → Option Versioned → Option Versioned × Bool
  | [], best => (best, best.isSome)
  | v :: rest, best =>
    if ¬wildcard ∧ v.version.major ≠ version.major then
      loadLoop version wildcard rest best
    else if v.version = version then
      (some v, true)
    else
      match best with
      | none => loadLoop version wildcard rest (some v)
      | some b =>
        if b.version.le v.version then
          loadLoop version wildcard rest (some v)
        else
          loadLoop version wildcard rest (some b)

/-- `versionedMap.Load(key, version)`. -/
def versionedMap.Load (vm : versionedMap) (key : String) (version : SemVer) :
    Option Versioned × Bool :=
  loadLoop version (version = nullVersion) (vm.entriesFor key) none

/-! ## Resources and the dependency aggregator -/

/-- The five resource classifications distinguished by `addDependency`. -/
inductive ResourceKind where
  | Custom
  | LocalComponent
  | RemoteComponent
  | DependencyOnly
  | Rehydrated
deriving DecidableEq, Repr

/-- Shallow embedding of a settled `Resource`: its kind, its URN output's
settled value with known/secret flags (`awaitURN`), its ID output's settled
value with known/secret flags (`awaitID`, meaningful for Custom resources),
and its ordered children (`getChildren`). -/
inductive Resource where
  | mk (kind : ResourceKind) (urn : URN) (urnKnown urnSecret : Bool)
       (id : String) (idKnown idSecret : Bool) (children : List Resource)
deriving Repr

mutual
/-- Structural equality of resources, modelling the `res == from` interface
comparison of `addDependency`. -/
def Resource.beq : Resource → Resource → Bool
  | .mk k u uk us i ik isc cs, .mk k' u' uk' us' i' ik' isc' cs' =>
    (decide (k = k' ∧ u = u' ∧ uk = uk' ∧ us = us' ∧ i = i' ∧ ik = ik' ∧ isc = isc')).and
      (Resource.beqList cs cs')

def Resource.beqList : List Resource → List Resource → Bool
  | [], [] => true
  | a :: as, b :: bs => (Resource.beq a b).and (Resource.beqList as bs)
  | _, _ => false
end

/-- The `res == from` check of `addDependency`: `from` is an interface value
that may be nil, and a non-nil resource never equals nil. -/
def eqFrom (fr : Option Resource) (r : Resource) : Bool :=
  match fr with
  | none => false
  | some f => f.beq r

def Resource.kind : Resource → ResourceKind
  | .mk k _ _ _ _ _ _ _ => k

def Resource.urn : Resource → URN
  | .mk _ u _ _ _ _ _ _ => u

def Resource.urnKnown : Resource → Bool
  | .mk _ _ k _ _ _ _ _ => k

def Resource.urnSecret : Resource → Bool
  | .mk _ _ _ s _ _ _ _ => s

def Resource.id : Resource → String
  | .mk _ _ _ _ i _ _ _ => i

def Resource.idKnown : Resource → Bool
  | .mk _ _ _ _ _ k _ _ => k

def Resource.idSecret : Resource → Bool
  | .mk _ _ _ _ _ _ s _ => s

def Resource.getChildren : Resource → List Resource
  | .mk _ _ _ _ _ _ _ cs => cs

/-- Whether the resource is a `CustomResource` (the `res.(CustomResource)`
type assertion). -/
def Resource.isCustom (r : Resource) : Bool := r.kind = ResourceKind.Custom

/-- Modelled from the spec and the source comment (the `keepDependency`
method itself lives outside this file): true for remote component resources,
dependency resources, and rehydrated component resources; false for local
component resources. -/
def Resource.keepDependency (r : Resource) : Bool :=
  match r.kind with
  | .RemoteComponent => true
  | .DependencyOnly => true
  | .Rehydrated => true
  | .LocalComponent => false
  | .Custom => false

/-- Key insertion into a `map[URN]Resource` viewed as its insertion-ordered
key set: a key already present is left in place. -/
def insertKey (deps : List URN) (u : URN) : List URN :=
  if u ∈ deps then deps else deps ++ [u]

mutual
/-- Shallow embedding of `addDependency` (rpc.go): Custom resources are added
directly; a non-custom resource equal to `from` is skipped; otherwise its
children are added recursively and then its own URN exactly when
`keepDependency()` holds.  `deps` is the accumulated key set. -/
def addDependency : Resource → Option Resource → List URN → List URN
  | res@(.mk _ _ _ _ _ _ _ children), fr, deps =>
    if res.isCustom then insertKey deps res.urn
    else if eqFrom fr res then deps
    else
      let deps' := addDependencyList children fr deps
      if res.keepDependency then insertKey deps' res.urn else deps'
termination_by r _ _ => sizeOf r

/-- The `for _, child := range res.getChildren()` loop of `addDependency`. -/
def addDependencyList : List Resource → Option Resource → List URN → List URN
  | [], _, deps => deps
  | c :: cs, fr, deps => addDependencyList cs fr (addDependency c fr deps)
termination_by cs _ _ => sizeOf cs
end

/-- Shallow embedding of `expandDependencies`: expand the slice of root
resources into the key set of the accumulated `map[URN]Resource`. -/
def expandDependencies (deps : List Resource) : List URN :=
  addDependencyList deps none []

-- The recursive contribution rule of the claim, written from the spec's
-- words (section 4.3), to be compared against `expandDependencies`: a Custom
-- resource contributes its own URN and its children are never visited; a
-- non-custom resource equal to `from` contributes nothing; otherwise the
-- contributions of all children followed by the resource's own URN exactly
-- when it keeps dependency.
mutual
/-- The spec's per-resource contribution rule (see the comment above). -/
def specContribution : Option Resource → Resource → List URN
  | fr, r@(.mk _ _ _ _ _ _ _ children) =>
    if r.isCustom then [r.urn]
    else if eqFrom fr r then []
    else
      specContributionList fr children ++
        (if r.keepDependency then [r.urn] else [])
termination_by _ r => sizeOf r

/-- Concatenated contributions of a list of resources, left to right. -/
def specContributionList : Option Resource → List Resource → List URN
  | _, [] => []
  | fr, c :: cs => specContribution fr c ++ specContributionList fr cs
termination_by _ cs => sizeOf cs
end

/-! ## Wire values and the marshaling engine -/

/-- Shallow embedding of `resource.PropertyValue` (the Asset and Archive
variants are outside the verified claims and are not modelled; the float64
`Number` payload is only ever injected into, never computed with, and is
embedded as `Int`). -/
inductive PropertyValue where
  | null
  | bool (b : Bool)
  | number (n : Int)
  | str (s : String)
  | array (xs : List PropertyValue)
  | object (m : List (String × PropertyValue))
  | secret (element : PropertyValue)
  | output (element : PropertyValue) (known secret : Bool) (dependencies : List URN)
  | computed
  | resourceReference (urn : URN) (id : Option String) (packageVersion : String)
deriving Repr

/-- `PropertyValue.IsNull`. -/
def PropertyValue.IsNull : PropertyValue → Bool
  | .null => true
  | _ => false

/-- The input values `marshalInputOptionsImpl` dispatches on: nil interface
values, settled Outputs (their awaited value, known/secret flags, dependency
resources and possible rejection error), Resource values, scalars, pointers,
slices, string-keyed maps, and structs whose fields carry raw `pulumi` tags. -/
inductive InputValue where
  | vnil
  | output (value : InputValue) (known secret : Bool) (deps : List Resource)
           (aerr : Option String)
  | res (r : Resource)
  | bool (b : Bool)
  | int (n : Int)
  | str (s : String)
  | ptr (p : Option InputValue)
  | array (xs : List InputValue)
  | map (entries : List (String × InputValue))
  | strct (fields : List (String × InputValue))
deriving Repr

/-- `marshalOptions`. -/
structure marshalOptions where
  ErrorOnOutput : Bool := false
  ExcludeResourceRefsFromDeps : Bool := false
deriving DecidableEq, Repr

/-- Marshaling failures.  `assertFail` embeds a `contract.Assertf` panic
(a fatal programming-error assertion, not a returned error); `cannotAwait`
is the `cannotAwaitFmt` error, whose Go rendering names the offending
value's dynamic type via `%T`; `wrap` is the
`"awaiting input property %q: %w"` wrapping of `marshalInputsOptions`. -/
inductive MErr where
  | err (msg : String)
  | assertFail (msg : String)
  | cannotAwait
  | wrap (pname : String) (e : MErr)
deriving DecidableEq, Repr

/-- Kernel-computable `strings.Split` on a single-character separator
(structural recursion over the character list). -/
def splitOnChar (c : Char) : List Char → List (List Char)
  | [] => [[]]
  | x :: xs =>
    if x = c then [] :: splitOnChar c xs
    else
      match splitOnChar c xs with
      | [] => [[x]]
      | h :: t => (x :: h) :: t

/-- `strings.Split s (String.singleton c)` as strings. -/
def splitString (c : Char) (s : String) : List String :=
  (splitOnChar c s.data).map (fun l => ⟨l⟩)

/-- `strings.Split(tag, ",")[0]`: the wire key is the segment of the
`pulumi` tag before the first comma. -/
def leadingTagKey (tag : String) : String :=
  (splitString ',' tag).headD ""

/-- Kernel-computable lexicographic comparison of character lists (Go's
bytewise `<=` on strings, by codepoint). -/
def charListLe : List Char → List Char → Bool
  | [], _ => true
  | _ :: _, [] => false
  | a :: as, b :: bs =>
    if a = b then charListLe as bs
    else decide (a.toNat < b.toNat)

/-- Go's `<=` on strings. -/
def stringLe (a b : String) : Bool := charListLe a.data b.data

theorem charListLe_total : ∀ a b : List Char,
    charListLe a b = true ∨ charListLe b a = true
  | [], b => Or.inl rfl
  | a :: as, [] => Or.inr rfl
  | a :: as, b :: bs => by
    by_cases hab : a = b
    · subst hab
      rw [charListLe, charListLe, if_pos rfl, if_pos rfl]
      exact charListLe_total as bs
    · have hba : ¬b = a := fun h => hab h.symm
      rw [charListLe, charListLe, if_neg hab, if_neg hba]
      have : a.toNat ≠ b.toNat := fun h => hab (Char.ext (UInt32.toNat.inj h))
      rcases Nat.lt_or_ge a.toNat b.toNat with hlt | hge
      · exact Or.inl (by simpa using hlt)
      · exact Or.inr (by simpa using Nat.lt_of_le_of_ne hge (fun h => this h.symm))

theorem charListLe_trans : ∀ a b c : List Char,
    charListLe a b = true → charListLe b c = true → charListLe a c = true
  | [], _, _, _, _ => rfl
  | a :: as, [], c, h, _ => by rw [charListLe] at h; exact absurd h (by simp)
  | a :: as, b :: bs, [], _, h => by rw [charListLe] at h; exact absurd h (by simp)
  | a :: as, b :: bs, c :: cs, h1, h2 => by
    rw [charListLe] at h1 h2 ⊢
    by_cases hab : a = b
    · subst hab
      rw [if_pos rfl] at h1
      by_cases hbc : a = c
      · subst hbc
        rw [if_pos rfl] at h2 ⊢
        exact charListLe_trans as bs cs h1 h2
      · rw [if_neg hbc] at h2 ⊢
        exact h2
    · rw [if_neg hab] at h1
      simp only [decide_eq_true_eq] at h1
      by_cases hbc : b = c
      · subst hbc
        rw [if_neg hab]
        simpa using h1
      · rw [if_neg hbc] at h2
        simp only [decide_eq_true_eq] at h2
        by_cases hac : a = c
        · subst hac
          exact absurd (Nat.lt_trans h1 h2) (Nat.lt_irrefl _)
        · rw [if_neg hac]
          simpa using Nat.lt_trans h1 h2

theorem stringLe_total (a b : String) : stringLe a b = true ∨ stringLe b a = true :=
  charListLe_total a.data b.data

theorem stringLe_trans {a b c : String} (h1 : stringLe a b = true)
    (h2 : stringLe b c = true) : stringLe a c = true :=
  charListLe_trans a.data b.data c.data h1 h2

instance : IsTotal String (fun a b => stringLe a b = true) := ⟨stringLe_total⟩

instance : IsTrans String (fun a b => stringLe a b = true) :=
  ⟨fun _ _ _ => stringLe_trans⟩

/-- The deterministic URN sort applied to an Output's expanded dependency
set (`sort.Slice(urns, func(i, j int) bool { return urns[i] < urns[ج] })`,
modelled with a stable sort under the `<=` closure of that order). -/
def sortURNs (l : List URN) : List URN :=
  List.insertionSort (fun a b => stringLe a b = true) l

mutual
/-- Shallow embedding of `marshalInputOptionsImpl`.  The reflective
destination-type conversions (`CallToOutputMethod`, assignability coercions)
carry no information in this model and are dropped; everything else follows
the source case by case.  The Boolean argument is `skipInputCheck`. -/
def marshalInputOptionsImpl :
    InputValue → marshalOptions → Bool → Except MErr (PropertyValue × List Resource)
  | .output value known secret outputDeps aerr, opts, false =>
    -- If the input is an Output, await its value.
    if opts.ErrorOnOutput then .error .cannotAwait
    else
      match aerr with
      | some m => .error (.err m)
      | none =>
        -- Get the underlying value, if known (its own deps are discarded).
        let elem : Except MErr PropertyValue :=
          if known then
            match marshalInputOptionsImpl value opts true with
            | .error e => .error e
            | .ok (pv, _) => .ok pv
          else .ok .null
        match elem with
        | .error e => .error e
        | .ok element =>
          -- If known, not a secret, and with no deps, return the value itself.
          if known && !secret && outputDeps.isEmpty then
            .ok (element, [])
          else
            let depSet := expandDependencies outputDeps
            let dependencies := if !depSet.isEmpty then sortURNs depSet else []
            .ok (.output element known secret dependencies, outputDeps)
  | .output _ _ _ _ _, _, true =>
    -- An awaited Output value is always fully resolved, so an Output here is
    -- unreachable in practice; the reflective kind switch has no case for it.
    .error (.err "unrecognized input property type")
  | .vnil, _, _ => .ok (.null, [])
  | .ptr none, _, _ => .ok (.null, [])
  | .res r, opts, _ =>
    let deps := if ¬opts.ExcludeResourceRefsFromDeps then [r] else []
    if ¬r.urnKnown then .error (.assertFail "URN must be known")
    else if r.urnSecret then .error (.assertFail "URN must not be secret")
    else if r.isCustom then
      -- awaitID discards the known flag of the ID; only secrecy is asserted.
      if r.idSecret then
        .error (.assertFail "CustomResource must not have a secret ID")
      else .ok (.resourceReference r.urn (some r.id) "", deps)
    else .ok (.resourceReference r.urn none "", deps)
  | .bool b, _, _ => .ok (.bool b, [])
  | .int n, _, _ => .ok (.number n, [])
  | .str s, _, _ => .ok (.str s, [])
  | .ptr (some v), opts, _ =>
    -- Dereference non-nil pointers and continue the loop.
    marshalInputOptionsImpl v opts false
  | .array xs, opts, _ =>
    match marshalArrayElems xs opts with
    | .error e => .error e
    | .ok (arr, deps) => .ok (.array arr, deps)
  | .map entries, opts, _ =>
    match marshalMapEntries entries opts with
    | .error e => .error e
    | .ok (obj, deps) => .ok (.object obj, deps)
  | .strct fields, opts, _ =>
    match marshalStructFields fields opts with
    | .error e => .error e
    | .ok (obj, deps) => .ok (.object obj, deps)
termination_by v _ _ => sizeOf v

/-- The element loop of the Array/Slice case: recurse per element, keep every
element (nulls included), and append dependencies in order. -/
def marshalArrayElems :
    List InputValue → marshalOptions → Except MErr (List PropertyValue × List Resource)
  | [], _ => .ok ([], [])
  | x :: xs, opts =>
    match marshalInputOptionsImpl x opts false with
    | .error e => .error e
    | .ok (e, d) =>
      match marshalArrayElems xs opts with
      | .error e' => .error e'
      | .ok (arr, ds) => .ok (e :: arr, d ++ ds)
termination_by xs _ => sizeOf xs

/-- The entry loop of the Map case: recurse per value, omit entries whose
marshaled value is Null, and append dependencies regardless. -/
def marshalMapEntries :
    List (String × InputValue) → marshalOptions →
      Except MErr (List (String × PropertyValue) × List Resource)
  | [], _ => .ok ([], [])
  | (k, v) :: rest, opts =>
    match marshalInputOptionsImpl v opts false with
    | .error e => .error e
    | .ok (mv, d) =>
      match marshalMapEntries rest opts with
      | .error e' => .error e'
      | .ok (obj, ds) =>
        .ok ((if mv.IsNull then obj else (k, mv) :: obj), d ++ ds)
termination_by entries _ => sizeOf entries

/-- The field loop of the Struct case: fields whose `pulumi` tag has an empty
leading key are skipped entirely; other fields are marshaled recursively,
omitted from the object when Null, with dependencies appended regardless. -/
def marshalStructFields :
    List (String × InputValue) → marshalOptions →
      Except MErr (List (String × PropertyValue) × List Resource)
  | [], _ => .ok ([], [])
  | (tag, v) :: rest, opts =>
    let key := leadingTagKey tag
    if key = "" then marshalStructFields rest opts
    else
      match marshalInputOptionsImpl v opts false with
      | .error e => .error e
      | .ok (fv, d) =>
        match marshalStructFields rest opts with
        | .error e' => .error e'
        | .ok (obj, ds) =>
          .ok ((if fv.IsNull then obj else (key, fv) :: obj), d ++ ds)
termination_by fields _ => sizeOf fields
end

/-- `marshalInputOptions` (entry point, `skipInputCheck=false`). -/
def marshalInputOptions (v : InputValue) (opts : marshalOptions) :
    Except MErr (PropertyValue × List Resource) :=
  marshalInputOptionsImpl v opts false

/-! ## Top-level input marshaling -/

/-- The accumulated state of `marshalInputsOptions`: the property map, the
per-property dependency URNs, and the aggregate dependency key set. -/
abbrev MarshalAcc :=
  List (String × PropertyValue) × List (String × List URN) × List URN

/-- Top-level `props` values: a struct of raw-tagged fields, a string-keyed
map, or any other shape (which is an error). -/
inductive Inputs where
  | strct (fields : List (String × InputValue))
  | map (entries : List (String × InputValue))
  | other
deriving Repr

/-- Only `contract.Assertf` panics escape the
`fmt.Errorf("awaiting input property %q: %w", ...)` wrapping. -/
def wrapPropertyErr (pname : String) : MErr → MErr
  | .assertFail m => .assertFail m
  | e => .wrap pname e

/-- The `marshalProperty` closure of `marshalInputsOptions`: marshal one
property, expand its resource dependencies, merge them into the aggregate
set, and record the property unless its value is Null with no dependencies. -/
def marshalProperty (pname : String) (pv : InputValue) (opts : marshalOptions)
    (acc : MarshalAcc) : Except MErr MarshalAcc :=
  match marshalInputOptions pv opts with
  | .error e => .error (wrapPropertyErr pname e)
  | .ok (v, resourceDeps) =>
    let allDeps := expandDependencies resourceDeps
    let deps := allDeps.foldl insertKey acc.2.2
    if !v.IsNull || !allDeps.isEmpty then
      .ok (acc.1 ++ [(pname, v)], acc.2.1 ++ [(pname, allDeps)], deps)
    else
      .ok (acc.1, acc.2.1, deps)

/-- The struct loop of `marshalInputsOptions`: the wire key is the leading
tag segment; untagged fields are skipped. -/
def marshalStructProps :
    List (String × InputValue) → marshalOptions → MarshalAcc → Except MErr MarshalAcc
  | [], _, acc => .ok acc
  | (tag, v) :: rest, opts, acc =>
    let key := leadingTagKey tag
    if key = "" then marshalStructProps rest opts acc
    else
      match marshalProperty key v opts acc with
      | .error e => .error e
      | .ok acc' => marshalStructProps rest opts acc'

/-- The map loop of `marshalInputsOptions`. -/
def marshalMapProps :
    List (String × InputValue) → marshalOptions → MarshalAcc → Except MErr MarshalAcc
  | [], _, acc => .ok acc
  | (k, v) :: rest, opts, acc =>
    match marshalProperty k v opts acc with
    | .error e => .error e
    | .ok acc' => marshalMapProps rest opts acc'

/-- Shallow embedding of `marshalInputsOptions`: turns resource property
inputs into a property map, per-property dependency URNs, and the aggregate
dependency URN set. -/
def marshalInputsOptions (props : Option Inputs) (opts : marshalOptions) :
    Except MErr MarshalAcc :=
  match props with
  | none => .ok ([], [], [])
  | some (.strct fields) => marshalStructProps fields opts ([], [], [])
  | some (.map entries) => marshalMapProps entries opts ([], [], [])
  | some .other =>
    .error (.err "cannot marshal Input that is not a struct or map")

/-! ## Wire predicates used by the unmarshalers -/

/-- `PropertyValue.IsComputed`. -/
def PropertyValue.IsComputed : PropertyValue → Bool
  | .computed => true
  | _ => false

/-- `PropertyValue.IsOutput`. -/
def PropertyValue.IsOutput : PropertyValue → Bool
  | .output _ _ _ _ => true
  | _ => false

/-- `v.OutputValue().Known` (false on non-Output values). -/
def PropertyValue.outputKnown : PropertyValue → Bool
  | .output _ k _ _ => k
  | _ => false

/-- `v.OutputValue().Secret` (false on non-Output values). -/
def PropertyValue.outputSecret : PropertyValue → Bool
  | .output _ _ s _ => s
  | _ => false

/-! ## Resource references and the unmarshaling engine -/

/-- `resource.ResourceReference`: URN, optional ID, package version, exactly
as on the wire. -/
structure ResourceReference where
  urn : URN
  id : Option String
  packageVersion : String
deriving DecidableEq, Repr

-- Modelled from the spec: the URN/token accessors (`URN.Name`, `URN.Type`,
-- `Token.HasModuleMember`, `Type.Module`, `Type.Name`) live outside this
-- file.  A URN is `urn:pulumi:stack::project::qualifiedType::name`; the type
-- token is the last `$`-separated segment of the qualified type and a full
-- member token has the form `package:module:typename`.

/-- Kernel-computable split on the two-character separator `::`. -/
def splitOnColonColon : List Char → List (List Char)
  | [] => [[]]
  | [x] => [[x]]
  | x :: y :: xs =>
    if x = ':' ∧ y = ':' then [] :: splitOnColonColon xs
    else
      match splitOnColonColon (y :: xs) with
      | [] => [[x]]
      | h :: t => (x :: h) :: t

/-- The `::`-separated components of a URN. -/
def urnParts (urn : URN) : List String :=
  (splitOnColonColon urn.data).map (fun l => ⟨l⟩)

/-- `ref.URN.Name()`: the last URN component. -/
def urnName (urn : URN) : String := (urnParts urn).getLastD ""

/-- `ref.URN.Type()`: the last `$`-separated segment of the third URN
component. -/
def urnTypeToken (urn : URN) : String :=
  (splitString '$' ((urnParts urn).getD 2 "")).getLastD ""

/-- The `:`-separated parts of a type token. -/
def tokenParts (t : String) : List String := splitString ':' t

/-- `tokens.Token(t).HasModuleMember()`: the token is `pkg:module:member`. -/
def tokenHasModuleMember (t : String) : Bool := (tokenParts t).length = 3

/-- `Type.Module().String()` of a `pkg:module:member` token. -/
def tokenModule (t : String) : String :=
  match tokenParts t with
  | p :: m :: _ :: _ => p ++ ":" ++ m
  | _ => t

/-- `Type.Name().String()` of a `pkg:module:member` token. -/
def tokenName (t : String) : String :=
  match tokenParts t with
  | _ :: _ :: n :: _ => n
  | _ => t

/-- Modelled from the spec: `semver.ParseTolerant` lives outside this file;
a malformed semantic-version string fails to parse
(`ProviderVersionParseError`), and up to three dot-separated numeric
components are accepted. -/
def natOfCharsAux : List Char → Nat → Option Nat
  | [], acc => some acc
  | c :: cs, acc =>
    if c.isDigit then natOfCharsAux cs (acc * 10 + (c.toNat - 48))
    else none

/-- Kernel-computable decimal parser: all-digit nonempty strings only. -/
def natOfString (s : String) : Option Nat :=
  match s.data with
  | [] => none
  | cs => natOfCharsAux cs 0

def parseTolerant (s : String) : Option SemVer :=
  match (splitString '.' s).mapM natOfString with
  | some [a] => some ⟨a, 0, 0⟩
  | some [a, b] => some ⟨a, b, 0⟩
  | some [a, b, c] => some ⟨a, b, c⟩
  | _ => none

/-- The resource handles `unmarshalResourceReference` can produce: registry
constructor invocations (carrying the registered payload) or the three
dependency placeholders. -/
inductive ResolvedResource where
  | constructedProvider (payload : Nat) (name typ urn : String)
  | constructed (payload : Nat) (name typ urn : String)
  | depProvider (urn : URN) (id : String)
  | depCustom (urn : URN) (id : String)
  | depComponent (urn : URN)
deriving DecidableEq, Repr

/-- Shallow embedding of `unmarshalResourceReference`.  The two global
registries are passed explicitly; the registered constructors are modelled
as pure (their own failures are external to the resolution step). -/
def unmarshalResourceReference (pkgs mods : versionedMap)
    (ref : ResourceReference) : Except String ResolvedResource :=
  let ver : Except String SemVer :=
    if ref.packageVersion.length > 0 then
      match parseTolerant ref.packageVersion with
      | some v => .ok v
      | none => .error ("failed to parse provider version: " ++ ref.packageVersion)
    else .ok nullVersion
  match ver with
  | .error e => .error e
  | .ok version =>
    let resName := urnName ref.urn
    let resType := urnTypeToken ref.urn
    let isProvider :=
      tokenHasModuleMember resType && (tokenModule resType = "pulumi:providers")
    if isProvider then
      let pkgName := tokenName resType
      match pkgs.Load pkgName version with
      | (some e, true) => .ok (.constructedProvider e.payload resName resType ref.urn)
      | _ =>
        let id := ref.id.getD ""
        .ok (.depProvider ref.urn id)
    else
      let modName := tokenModule resType
      match mods.Load modName version with
      | (some e, true) => .ok (.constructed e.payload resName resType ref.urn)
      | _ =>
        match ref.id with
        | some i => .ok (.depCustom ref.urn i)
        | none => .ok (.depComponent ref.urn)

/-- Runtime values produced by `unmarshalPropertyValue` (Asset and Archive
wrappers are outside the verified claims and not modelled). -/
inductive RTValue where
  | vnil
  | bool (b : Bool)
  | number (n : Int)
  | str (s : String)
  | array (xs : List RTValue)
  | object (m : List (String × RTValue))
  | res (r : ResolvedResource)
deriving Repr

mutual
/-- Shallow embedding of `unmarshalPropertyValue`: returns the runtime value
and its secretness. -/
def unmarshalPropertyValue (pkgs mods : versionedMap) :
    PropertyValue → Except String (RTValue × Bool)
  | .computed => .ok (.vnil, false)
  | .output element known secret _ =>
    if !known then .ok (.vnil, secret)
    else
      match unmarshalPropertyValue pkgs mods element with
      | .error e => .error e
      | .ok (ov, _) => .ok (ov, secret)
  | .secret element =>
    match unmarshalPropertyValue pkgs mods element with
    | .error e => .error e
    | .ok (sv, _) => .ok (sv, true)
  | .array xs =>
    match unmarshalPVList pkgs mods xs with
    | .error e => .error e
    | .ok (rv, secret) => .ok (.array rv, secret)
  | .object m =>
    match unmarshalPVObject pkgs mods m with
    | .error e => .error e
    | .ok (rv, secret) => .ok (.object rv, secret)
  | .resourceReference urn id pkgv =>
    match unmarshalResourceReference pkgs mods ⟨urn, id, pkgv⟩ with
    | .error e => .error e
    | .ok r => .ok (.res r, false)
  | .null => .ok (.vnil, false)
  | .bool b => .ok (.bool b, false)
  | .number n => .ok (.number n, false)
  | .str s => .ok (.str s, false)
termination_by v => sizeOf v

/-- The array loop of `unmarshalPropertyValue`: element secrets are OR-ed. -/
def unmarshalPVList (pkgs mods : versionedMap) :
    List PropertyValue → Except String (List RTValue × Bool)
  | [] => .ok ([], false)
  | e :: rest =>
    match unmarshalPropertyValue pkgs mods e with
    | .error err => .error err
    | .ok (ev, es) =>
      match unmarshalPVList pkgs mods rest with
      | .error err => .error err
      | .ok (rv, s) => .ok (ev :: rv, es || s)
termination_by xs => sizeOf xs

/-- The object loop of `unmarshalPropertyValue`: entry secrets are OR-ed. -/
def unmarshalPVObject (pkgs mods : versionedMap) :
    List (String × PropertyValue) → Except String (List (String × RTValue) × Bool)
  | [] => .ok ([], false)
  | (k, e) :: rest =>
    match unmarshalPropertyValue pkgs mods e with
    | .error err => .error err
    | .ok (ev, es) =>
      match unmarshalPVObject pkgs mods rest with
      | .error err => .error err
      | .ok (rv, s) => .ok ((k, ev) :: rv, es || s)
termination_by m => sizeOf m
end

/-! ## `unmarshalOutput` -/

/-- The destination kinds `unmarshalOutput` dispatches on (reflective
destinations; non-empty interfaces and the Asset/Archive special cases are
outside the verified claims and not modelled). -/
inductive DestType where
  | bool
  | int
  | float
  | str
  | slice (elem : DestType)
  | map (elem : DestType)
  | strct (fields : List (String × DestType))
  | iface
  | ptr (elem : DestType)
deriving Repr

/-- The pointer-allocation loop of `unmarshalOutput`: dereference down to the
pointee destination. -/
def stripPtrs : DestType → DestType
  | .ptr e => stripPtrs e
  | d => d

/-- The early zero-value return of `unmarshalOutput`:
`v.IsNull() || v.IsComputed() || (v.IsOutput() && !v.OutputValue().Known)`. -/
def unmarshalZeroCheck (v : PropertyValue) : Bool :=
  v.IsNull || v.IsComputed || (v.IsOutput && !v.outputKnown)

/-- Object lookup `obj[resource.PropertyKey(tag)]`. -/
def lookupPV : List (String × PropertyValue) → String → Option PropertyValue
  | [], _ => none
  | (k', e) :: rest, k => if k' = k then some e else lookupPV rest k

theorem sizeOf_lookupPV {m : List (String × PropertyValue)} {k : String}
    {e : PropertyValue} (h : lookupPV m k = some e) : sizeOf e < sizeOf m := by
  induction m with
  | nil => simp [lookupPV] at h
  | cons hd tl ih =>
    obtain ⟨k', e'⟩ := hd
    rw [lookupPV] at h
    by_cases hc : k' = k
    · simp only [hc, if_pos rfl] at h
      cases h
      simp
      omega
    · rw [if_neg hc] at h
      have := ih h
      simp
      omega

/-- Modelled from the spec: `resource.IsInternalPropertyKey` (outside this
file) recognizes reserved keys by their `__` prefix. -/
def IsInternalPropertyKey (k : String) : Bool := k.startsWith "__"

mutual
/-- Shallow embedding of `unmarshalOutput`, which unmarshals a single output
variable into a reflective destination and reports secretness.  The model
tracks the returned secret flag and errors; the values written into the
destination (and the destination-assignability refinements of the
ResourceReference case) are not tracked. -/
def unmarshalOutput (pkgs mods : versionedMap) (v : PropertyValue)
    (dest0 : DestType) : Except String Bool :=
  -- Check for nils and unknowns; the destination keeps its zero value.
  if unmarshalZeroCheck v then .ok false
  else
    let dest := stripPtrs dest0
    match v with
    | .secret element =>
      match unmarshalOutput pkgs mods element dest with
      | .error e => .error e
      | .ok _ => .ok true
    | .resourceReference urn id pkgv =>
      match unmarshalPropertyValue pkgs mods (.resourceReference urn id pkgv) with
      | .error e => .error e
      | .ok (_, secret) => .ok secret
    | .output element _ secret _ =>
      -- Known is necessarily true here; the inner secret flag is discarded
      -- and the wire Output's flag returned.
      match unmarshalOutput pkgs mods element dest with
      | .error e => .error e
      | .ok _ => .ok secret
    | v => unmarshalByKind pkgs mods v dest
termination_by (sizeOf v, 1)

/-- The destination-kind switch of `unmarshalOutput`. -/
def unmarshalByKind (pkgs mods : versionedMap) (v : PropertyValue)
    (dest : DestType) : Except String Bool :=
  match dest with
  | .bool =>
    match v with
    | .bool _ => .ok false
    | _ => .error "expected a bool"
  | .int =>
    match v with
    | .number _ => .ok false
    | _ => .error "expected a number"
  | .float =>
    match v with
    | .number _ => .ok false
    | _ => .error "expected a number"
  | .str =>
    match v with
    | .str _ => .ok false
    | .resourceReference _ _ _ =>
      -- dest.SetString(id) when the reference carries an ID, else the URN;
      -- the written string is not tracked.
      .ok false
    | _ => .error "expected a string"
  | .slice elem =>
    match v with
    | .array xs => unmarshalSliceU pkgs mods xs elem
    | _ => .error "expected an array"
  | .map elem =>
    match v with
    | .object m => unmarshalMapU pkgs mods m elem
    | _ => .error "expected an object"
  | .iface =>
    match unmarshalPropertyValue pkgs mods v with
    | .error e => .error e
    | .ok (_, secret) => .ok secret
  | .strct fields =>
    match v with
    | .object m => unmarshalStructU pkgs mods m fields
    | _ => .error "expected an object"
  | .ptr _ =>
    -- Pointers were stripped before the kind switch, so this is the
    -- switch's default case.
    .error "cannot unmarshal into type"
termination_by (sizeOf v, 0)

/-- The slice loop of `unmarshalOutput`: element secrets are OR-ed. -/
def unmarshalSliceU (pkgs mods : versionedMap) (xs : List PropertyValue)
    (elem : DestType) : Except String Bool :=
  match xs with
  | [] => .ok false
  | x :: rest =>
    match unmarshalOutput pkgs mods x elem with
    | .error e => .error e
    | .ok s =>
      match unmarshalSliceU pkgs mods rest elem with
      | .error e => .error e
      | .ok s' => .ok (s || s')
termination_by (sizeOf xs, 1)

/-- The map loop of `unmarshalOutput`: internal keys are skipped, entry
secrets are OR-ed. -/
def unmarshalMapU (pkgs mods : versionedMap) (m : List (String × PropertyValue))
    (elem : DestType) : Except String Bool :=
  match m with
  | [] => .ok false
  | (k, e) :: rest =>
    if IsInternalPropertyKey k then unmarshalMapU pkgs mods rest elem
    else
      match unmarshalOutput pkgs mods e elem with
      | .error err => .error err
      | .ok s =>
        match unmarshalMapU pkgs mods rest elem with
        | .error err => .error err
        | .ok s' => .ok (s || s')
termination_by (sizeOf m, 1)

/-- The struct loop of `unmarshalOutput`: fields with an empty leading tag
key or no matching object entry are skipped; field secrets are OR-ed. -/
def unmarshalStructU (pkgs mods : versionedMap) (m : List (String × PropertyValue))
    (fields : List (String × DestType)) : Except String Bool :=
  match fields with
  | [] => .ok false
  | (tag, fdest) :: rest =>
    let key := leadingTagKey tag
    if key = "" then unmarshalStructU pkgs mods m rest
    else
      match h : lookupPV m key with
      | none => unmarshalStructU pkgs mods m rest
      | some e =>
        match unmarshalOutput pkgs mods e fdest with
        | .error err => .error err
        | .ok s =>
          match unmarshalStructU pkgs mods m rest with
          | .error err => .error err
          | .ok s' => .ok (s || s')
termination_by (sizeOf m, sizeOf fields)
decreasing_by
  all_goals simp_wf
  all_goals try omega
  · have := sizeOf_lookupPV h
    omega
end

/-! ## The `Apply` combinator -/

-- Modelled from the spec: the `Apply` combinator implementation lives
-- outside this file (only its test, `TestOutputApply`, is in the sample);
-- the model below follows spec section 4.2.

/-- A resolved Output state: element (meaningful only when known), the
known/secret flags, and the dependency set. -/
structure OState (α : Type) where
  element : α
  known : Bool
  secret : Bool
  deps : List URN
deriving DecidableEq, Repr

/-- A settled Output: resolved with a state, or rejected with an error. -/
inductive SettledOutput (α : Type) where
  | ok (s : OState α)
  | err (e : String)
deriving DecidableEq, Repr

/-- What an `Apply` callback can produce: an error, a plain value, or another
Output (which the combinator flattens instead of nesting). -/
inductive ApplyResult (β : Type) where
  | value (b : β)
  | output (o : SettledOutput β)
  | err (e : String)

/-- Modelled from the spec (section 4.2): when `o` resolves known and without
error, `f(value)` runs — an error rejects the result, a plain value resolves
it known, and an inner Output is awaited and its known/secret/deps
inherited.  When `o` resolves with `known=false`, `f` is never invoked and
the result is unknown, preserving secret/deps.  When `o` rejects, the result
rejects with the same error and `f` is never invoked. -/
def applyOutput [Inhabited β] (o : SettledOutput α) (f : α → ApplyResult β) :
    SettledOutput β :=
  match o with
  | .err e => .err e
  | .ok s =>
    if !s.known then .ok ⟨default, false, s.secret, s.deps⟩
    else
      match f s.element with
      | .err e => .err e
      | .value b => .ok ⟨b, true, s.secret, s.deps⟩
      | .output (.err e) => .err e
      | .output (.ok t) => .ok ⟨t.element, t.known, t.secret, t.deps⟩

/-! ## Registry lemmas -/

/-- The candidate filter of the `Load` scan: wildcard matches everything,
otherwise the major versions must agree. -/
def passMajor (version : SemVer) (wildcard : Bool) (e : Versioned) : Bool :=
  wildcard || e.version.major == version.major

/-- The candidate set as the claim describes it: every entry stored under
the key at the wildcard version, otherwise the entries whose major version
equals the requested major. -/
def loadCandidates (vm : versionedMap) (key : String) (version : SemVer) :
    List Versioned :=
  if version = nullVersion then vm.entriesFor key
  else (vm.entriesFor key).filter (fun e => e.version.major == version.major)

theorem loadCandidates_eq_filter (vm : versionedMap) (key : String) (version : SemVer) :
    loadCandidates vm key version =
      (vm.entriesFor key).filter (passMajor version (version = nullVersion)) := by
  by_cases hw : version = nullVersion
  · rw [loadCandidates, if_pos hw]
    have : passMajor version (version = nullVersion) = fun _ => true := by
      funext e
      simp [passMajor, hw]
    rw [this, List.filter_true]
  · rw [loadCandidates, if_neg hw]
    refine List.filter_congr ?_
    intro e _
    simp [passMajor, hw]

theorem loadLoop_cons_skip (version : SemVer) (wildcard : Bool) (h : Versioned)
    (t : List Versioned) (best : Option Versioned)
    (hcond : ¬wildcard = true ∧ ¬h.version.major = version.major) :
    loadLoop version wildcard (h :: t) best = loadLoop version wildcard t best := by
  rw [loadLoop.eq_def]
  simp only [if_pos hcond]

theorem loadLoop_cons_exact (version : SemVer) (wildcard : Bool) (h : Versioned)
    (t : List Versioned) (best : Option Versioned)
    (hcond : ¬(¬wildcard = true ∧ ¬h.version.major = version.major))
    (he : h.version = version) :
    loadLoop version wildcard (h :: t) best = (some h, true) := by
  rw [loadLoop.eq_def]
  simp only [if_neg hcond, if_pos he]

theorem loadLoop_cons_none (version : SemVer) (wildcard : Bool) (h : Versioned)
    (t : List Versioned)
    (hcond : ¬(¬wildcard = true ∧ ¬h.version.major = version.major))
    (he : ¬h.version = version) :
    loadLoop version wildcard (h :: t) none = loadLoop version wildcard t (some h) := by
  rw [loadLoop.eq_def]
  simp only [if_neg hcond, if_neg he]

theorem loadLoop_cons_upd (version : SemVer) (wildcard : Bool) (h : Versioned)
    (t : List Versioned) (b : Versioned)
    (hcond : ¬(¬wildcard = true ∧ ¬h.version.major = version.major))
    (he : ¬h.version = version) (hle : b.version.le h.version = true) :
    loadLoop version wildcard (h :: t) (some b) = loadLoop version wildcard t (some h) := by
  rw [loadLoop.eq_def]
  simp only [if_neg hcond, if_neg he, if_pos hle]

theorem loadLoop_cons_keep (version : SemVer) (wildcard : Bool) (h : Versioned)
    (t : List Versioned) (b : Versioned)
    (hcond : ¬(¬wildcard = true ∧ ¬h.version.major = version.major))
    (he : ¬h.version = version) (hle : ¬b.version.le h.version = true) :
    loadLoop version wildcard (h :: t) (some b) = loadLoop version wildcard t (some b) := by
  rw [loadLoop.eq_def]
  simp only [if_neg hcond, if_neg he, if_neg hle]

theorem loadLoop_filter (version : SemVer) (wildcard : Bool) :
    ∀ (l : List Versioned) (best : Option Versioned),
      loadLoop version wildcard l best =
        loadLoop version wildcard (l.filter (passMajor version wildcard)) best := by
  intro l
  induction l with
  | nil => intro best; rfl
  | cons h t ih =>
    intro best
    by_cases hp : passMajor version wildcard h = true
    · have hcond : ¬(¬wildcard = true ∧ ¬h.version.major = version.major) := by
        simp only [passMajor, Bool.or_eq_true, beq_iff_eq] at hp
        tauto
      rw [List.filter_cons_of_pos hp]
      by_cases he : h.version = version
      · rw [loadLoop_cons_exact _ _ _ _ _ hcond he,
            loadLoop_cons_exact _ _ _ _ _ hcond he]
      · cases best with
        | none =>
          rw [loadLoop_cons_none _ _ _ _ hcond he,
              loadLoop_cons_none _ _ _ _ hcond he]
          exact ih _
        | some b =>
          by_cases hle : b.version.le h.version = true
          · rw [loadLoop_cons_upd _ _ _ _ _ hcond he hle,
                loadLoop_cons_upd _ _ _ _ _ hcond he hle]
            exact ih _
          · rw [loadLoop_cons_keep _ _ _ _ _ hcond he hle,
                loadLoop_cons_keep _ _ _ _ _ hcond he hle]
            exact ih _
    · have hcond : (¬wildcard = true ∧ ¬h.version.major = version.major) := by
        simp only [passMajor, Bool.or_eq_true, beq_iff_eq] at hp
        tauto
      rw [List.filter_cons_of_neg hp, loadLoop_cons_skip _ _ _ _ _ hcond]
      exact ih best

theorem loadLoop_exact (version : SemVer) (wildcard : Bool) :
    ∀ (l : List Versioned) (best : Option Versioned),
      (∃ e ∈ l, passMajor version wildcard e = true ∧ e.version = version) →
      ∃ c, loadLoop version wildcard l best = (some c, true) ∧
        c ∈ l ∧ c.version = version := by
  intro l
  induction l with
  | nil => intro best h; simp at h
  | cons h t ih =>
    intro best hex
    by_cases hp : passMajor version wildcard h = true
    · have hcond : ¬(¬wildcard = true ∧ ¬h.version.major = version.major) := by
        simp only [passMajor, Bool.or_eq_true, beq_iff_eq] at hp
        tauto
      by_cases he : h.version = version
      · exact ⟨h, loadLoop_cons_exact _ _ _ _ _ hcond he, List.mem_cons_self h t, he⟩
      · have hex' : ∃ e ∈ t, passMajor version wildcard e = true ∧ e.version = version := by
          obtain ⟨e, hm, hpe, hv⟩ := hex
          rcases List.mem_cons.mp hm with rfl | hm'
          · exact absurd hv he
          · exact ⟨e, hm', hpe, hv⟩
        cases best with
        | none =>
          obtain ⟨c, hc, hm, hv⟩ := ih (some h) hex'
          exact ⟨c, by rw [loadLoop_cons_none _ _ _ _ hcond he]; exact hc,
            List.mem_cons_of_mem h hm, hv⟩
        | some b =>
          by_cases hle : b.version.le h.version = true
          · obtain ⟨c, hc, hm, hv⟩ := ih (some h) hex'
            exact ⟨c, by rw [loadLoop_cons_upd _ _ _ _ _ hcond he hle]; exact hc,
              List.mem_cons_of_mem h hm, hv⟩
          · obtain ⟨c, hc, hm, hv⟩ := ih (some b) hex'
            exact ⟨c, by rw [loadLoop_cons_keep _ _ _ _ _ hcond he hle]; exact hc,
              List.mem_cons_of_mem h hm, hv⟩
    · have hcond : (¬wildcard = true ∧ ¬h.version.major = version.major) := by
        simp only [passMajor, Bool.or_eq_true, beq_iff_eq] at hp
        tauto
      have hex' : ∃ e ∈ t, passMajor version wildcard e = true ∧ e.version = version := by
        obtain ⟨e, hm, hpe, hv⟩ := hex
        rcases List.mem_cons.mp hm with rfl | hm'
        · exact absurd hpe hp
        · exact ⟨e, hm', hpe, hv⟩
      obtain ⟨c, hc, hm, hv⟩ := ih best hex'
      exact ⟨c, by rw [loadLoop_cons_skip _ _ _ _ _ hcond]; exact hc,
        List.mem_cons_of_mem h hm, hv⟩

theorem loadLoop_best (version : SemVer) (wildcard : Bool) :
    ∀ (l : List Versioned) (best : Option Versioned),
      (∀ e ∈ l, passMajor version wildcard e = true) →
      (∀ e ∈ l, e.version ≠ version) →
      ((l = [] ∧ best = none →
          loadLoop version wildcard l best = (none, false)) ∧
       (¬(l = [] ∧ best = none) →
          ∃ b, loadLoop version wildcard l best = (some b, true) ∧
            (b ∈ l ∨ best = some b) ∧
            (∀ e ∈ l, e.version.le b.version = true) ∧
            (∀ b0, best = some b0 → b0.version.le b.version = true))) := by
  intro l
  induction l with
  | nil =>
    intro best _ _
    constructor
    · rintro ⟨-, rfl⟩; rfl
    · intro hne
      cases best with
      | none => simp at hne
      | some b0 =>
        refine ⟨b0, rfl, Or.inr rfl, by simp, ?_⟩
        rintro b1 h
        cases h
        exact SemVer.le_refl _
  | cons h t ih =>
    intro best hpass hno
    have hp : passMajor version wildcard h = true := hpass h (List.mem_cons_self h t)
    have hpass' : ∀ e ∈ t, passMajor version wildcard e = true :=
      fun e hm => hpass e (List.mem_cons_of_mem h hm)
    have hno' : ∀ e ∈ t, e.version ≠ version :=
      fun e hm => hno e (List.mem_cons_of_mem h hm)
    have hcond : ¬(¬wildcard = true ∧ ¬h.version.major = version.major) := by
      simp only [passMajor, Bool.or_eq_true, beq_iff_eq] at hp
      tauto
    have he : h.version ≠ version := hno h (List.mem_cons_self h t)
    constructor
    · rintro ⟨habs, -⟩
      exact absurd habs (List.cons_ne_nil _ _)
    · intro _
      cases best with
      | none =>
        obtain ⟨b, hb, hmem, hmax, hbest⟩ := (ih (some h) hpass' hno').2 (by simp)
        have hhb : h.version.le b.version = true := hbest h rfl
        refine ⟨b, by rw [loadLoop_cons_none _ _ _ _ hcond he]; exact hb, ?_, ?_,
          by rintro b0 ⟨⟩⟩
        · rcases hmem with hm | hm
          · exact Or.inl (List.mem_cons_of_mem h hm)
          · cases hm
            exact Or.inl (List.mem_cons_self _ _)
        · intro e hme
          rcases List.mem_cons.mp hme with rfl | hme'
          · exact hhb
          · exact hmax e hme'
      | some b0 =>
        by_cases hle : b0.version.le h.version = true
        · obtain ⟨b, hb, hmem, hmax, hbest⟩ := (ih (some h) hpass' hno').2 (by simp)
          have hhb : h.version.le b.version = true := hbest h rfl
          refine ⟨b, by rw [loadLoop_cons_upd _ _ _ _ _ hcond he hle]; exact hb,
            ?_, ?_, ?_⟩
          · rcases hmem with hm | hm
            · exact Or.inl (List.mem_cons_of_mem h hm)
            · cases hm
              exact Or.inl (List.mem_cons_self _ _)
          · intro e hme
            rcases List.mem_cons.mp hme with rfl | hme'
            · exact hhb
            · exact hmax e hme'
          · rintro b1 ⟨⟩
            exact SemVer.le_trans hle hhb
        · have hhb0 : h.version.le b0.version = true := by
            rcases SemVer.le_total b0.version h.version with htot | htot
            · exact absurd htot hle
            · exact htot
          obtain ⟨b, hb, hmem, hmax, hbest⟩ := (ih (some b0) hpass' hno').2 (by simp)
          have hb0b : b0.version.le b.version = true := hbest b0 rfl
          refine ⟨b, by rw [loadLoop_cons_keep _ _ _ _ _ hcond he hle]; exact hb,
            ?_, ?_, ?_⟩
          · rcases hmem with hm | hm
            · exact Or.inl (List.mem_cons_of_mem h hm)
            · exact Or.inr hm
          · intro e hme
            rcases List.mem_cons.mp hme with rfl | hme'
            · exact SemVer.le_trans hhb0 hb0b
            · exact hmax e hme'
          · rintro b1 ⟨⟩
            exact hb0b

/-! ## Claim theorems -/

/-- The registry of the C4 scenario: versions 1.2.0 and 2.0.0 stored under
key `K`. -/
def vmK : versionedMap := ⟨[("K", [⟨⟨1, 2, 0⟩, 1⟩, ⟨⟨2, 0, 0⟩, 2⟩])]⟩

/-- C4: `versionedMap.Load(key, version)` draws its candidates from every
entry under the key at the wildcard (null) version and otherwise from the
entries with matching major version; an exact version match is returned with
`found=true`; absent an exact match the pairwise greater-or-equal scan keeps
a maximal-version candidate, and `found=false` exactly when the candidate
set is empty.  With 1.2.0 and 2.0.0 under `K`: `Load(K, 1.5.0)` returns the
1.2.0 entry, `Load` at the wildcard returns some entry, and `Load` on an
unregistered key reports not-found. -/
theorem versionedMap_Load_spec :
    (∀ (vm : versionedMap) (key : String) (version : SemVer),
      ((∃ c ∈ loadCandidates vm key version, c.version = version) →
        ∃ c, vm.Load key version = (some c, true) ∧
          c ∈ loadCandidates vm key version ∧ c.version = version) ∧
      ((∀ c ∈ loadCandidates vm key version, c.version ≠ version) →
        loadCandidates vm key version ≠ [] →
        ∃ b, vm.Load key version = (some b, true) ∧
          b ∈ loadCandidates vm key version ∧
          ∀ c ∈ loadCandidates vm key version, c.version.le b.version = true) ∧
      ((vm.Load key version).2 = false ↔ loadCandidates vm key version = [])) ∧
    vmK.Load "K" ⟨1, 5, 0⟩ = (some ⟨⟨1, 2, 0⟩, 1⟩, true) ∧
    (vmK.Load "K" nullVersion).1.isSome = true ∧
    vmK.Load "unregistered" ⟨1, 0, 0⟩ = (none, false) := by
  refine ⟨?_, by decide, by decide, by decide⟩
  intro vm key version
  have hload : vm.Load key version =
      loadLoop version (version = nullVersion) (vm.entriesFor key) none := rfl
  have hcand := loadCandidates_eq_filter vm key version
  refine ⟨?_, ?_, ?_⟩
  · intro hex
    obtain ⟨c, hm, hv⟩ := hex
    rw [hcand] at hm
    obtain ⟨hm', hp⟩ := List.mem_filter.mp hm
    obtain ⟨c', hc', hm'', hv'⟩ :=
      loadLoop_exact version (version = nullVersion) (vm.entriesFor key) none
        ⟨c, hm', hp, hv⟩
    refine ⟨c', by rw [hload]; exact hc', ?_, hv'⟩
    rw [hcand]
    refine List.mem_filter.mpr ⟨hm'', ?_⟩
    simp [passMajor, hv']
  · intro hno hne
    have hload' : vm.Load key version =
        loadLoop version (version = nullVersion)
          ((vm.entriesFor key).filter (passMajor version (version = nullVersion))) none := by
      rw [hload, loadLoop_filter]
    have hpass : ∀ e ∈ (vm.entriesFor key).filter
        (passMajor version (version = nullVersion)),
        passMajor version (version = nullVersion) e = true :=
      fun e hm => (List.mem_filter.mp hm).2
    have hno' : ∀ e ∈ (vm.entriesFor key).filter
        (passMajor version (version = nullVersion)), e.version ≠ version := by
      intro e hm
      exact hno e (by rw [hcand]; exact hm)
    have hne' : ¬((vm.entriesFor key).filter
        (passMajor version (version = nullVersion)) = [] ∧
        (none : Option Versioned) = none) := by
      rintro ⟨habs, -⟩
      rw [hcand] at hne
      exact hne habs
    obtain ⟨b, hb, hmem, hmax, -⟩ :=
      (loadLoop_best version (version = nullVersion) _ none hpass hno').2 hne'
    refine ⟨b, by rw [hload']; exact hb, ?_, ?_⟩
    · rcases hmem with hm | hm
      · rw [hcand]; exact hm
      · exact absurd hm (by simp)
    · intro c hc
      exact hmax c (by rw [hcand] at hc; exact hc)
  · by_cases hex : ∃ c ∈ loadCandidates vm key version, c.version = version
    · obtain ⟨c, hm, hv⟩ := hex
      rw [hcand] at hm
      obtain ⟨hm', hp⟩ := List.mem_filter.mp hm
      obtain ⟨c', hc', -, -⟩ :=
        loadLoop_exact version (version = nullVersion) (vm.entriesFor key) none
          ⟨c, hm', hp, hv⟩
      rw [hload, hc']
      constructor
      · intro habs
        simp at habs
      · intro habs
        rw [hcand] at habs
        rw [habs] at hm
        simp at hm
    · push_neg at hex
      have hload' : vm.Load key version =
          loadLoop version (version = nullVersion)
            ((vm.entriesFor key).filter (passMajor version (version = nullVersion))) none := by
        rw [hload, loadLoop_filter]
      have hpass : ∀ e ∈ (vm.entriesFor key).filter
          (passMajor version (version = nullVersion)),
          passMajor version (version = nullVersion) e = true :=
        fun e hm => (List.mem_filter.mp hm).2
      have hno' : ∀ e ∈ (vm.entriesFor key).filter
          (passMajor version (version = nullVersion)), e.version ≠ version := by
        intro e hm
        exact hex e (by rw [hcand]; exact hm)
      by_cases hempty : (vm.entriesFor key).filter
          (passMajor version (version = nullVersion)) = []
      · have := (loadLoop_best version (version = nullVersion) _ none hpass hno').1
          ⟨hempty, rfl⟩
        rw [hload', this, hcand]
        simp [hempty]
      · obtain ⟨b, hb, -, -, -⟩ :=
          (loadLoop_best version (version = nullVersion) _ none hpass hno').2
            (by rintro ⟨habs, -⟩; exact hempty habs)
        rw [hload', hb, hcand]
        simp [hempty]

/-- C4 witness: the general part of `versionedMap_Load_spec` applied to the
scenario registry at version 1.5.0 (no exact match, candidates nonempty). -/
theorem versionedMap_Load_spec_witness :
    ∃ b, vmK.Load "K" ⟨1, 5, 0⟩ = (some b, true) ∧
      b ∈ loadCandidates vmK "K" ⟨1, 5, 0⟩ ∧
      ∀ c ∈ loadCandidates vmK "K" ⟨1, 5, 0⟩, c.version.le b.version = true :=
  ((versionedMap_Load_spec.1 vmK "K" ⟨1, 5, 0⟩).2.1 (by decide) (by decide))

/-- C7: for every Output `o` and callback `f`, if `o` settled with
`known=false` and no error then `Apply(o, f)` never invokes `f` (its result
does not depend on `f`) and the result awaits to `known=false` with the same
secret flag and the same dependency set as `o`; if `o` settled with an
error, `Apply(o, f)` never invokes `f` and its result rejects with that same
error. -/
theorem applyOutput_unknown_rejected {α β : Type} [Inhabited β]
    (s : OState α) (e : String) (f g : α → ApplyResult β) :
    (s.known = false →
      applyOutput (.ok s) f = .ok ⟨default, false, s.secret, s.deps⟩ ∧
      applyOutput (.ok s) f = applyOutput (.ok s) g) ∧
    (applyOutput (.err e) f = .err e ∧
      applyOutput (.err e) f = applyOutput (.err e) g) := by
  constructor
  · intro hk
    constructor
    · rw [applyOutput, hk]
      rfl
    · rw [applyOutput, applyOutput, hk]
      simp
  · exact ⟨rfl, rfl⟩

/-- C7 witness: the unknown case at a concrete secret Output with one
dependency, and the rejected case at a concrete error, with two callbacks
that differ everywhere. -/
theorem applyOutput_unknown_rejected_witness :
    ((0 : Nat) = 0 → True) ∧
    (applyOutput (SettledOutput.ok ⟨(7 : Nat), false, true, ["urn:dep"]⟩)
        (fun n => ApplyResult.value (n + 1)) =
      SettledOutput.ok ⟨(0 : Nat), false, true, ["urn:dep"]⟩ ∧
    applyOutput (SettledOutput.ok ⟨(7 : Nat), false, true, ["urn:dep"]⟩)
        (fun n => ApplyResult.value (n + 1)) =
      applyOutput (SettledOutput.ok ⟨(7 : Nat), false, true, ["urn:dep"]⟩)
        (fun _ => ApplyResult.err "changed")) ∧
    (applyOutput (SettledOutput.err "boom" : SettledOutput Nat)
        (fun n => ApplyResult.value (n + 1)) = SettledOutput.err "boom") := by
  refine ⟨fun _ => trivial, ?_, ?_⟩
  · exact (applyOutput_unknown_rejected ⟨(7 : Nat), false, true, ["urn:dep"]⟩ "x"
      (fun n => ApplyResult.value (n + 1)) (fun _ => ApplyResult.err "changed")).1 rfl
  · exact ((applyOutput_unknown_rejected ⟨(7 : Nat), false, true, ["urn:dep"]⟩ "boom"
      (fun n => ApplyResult.value (n + 1)) (fun _ => ApplyResult.err "changed")).2).1

/-! ## Dependency aggregator lemmas and C1 -/

theorem mem_insertKey {deps : List URN} {u x : URN} :
    u ∈ insertKey deps x ↔ u ∈ deps ∨ u = x := by
  rw [insertKey]
  by_cases hx : x ∈ deps
  · rw [if_pos hx]
    constructor
    · exact Or.inl
    · rintro (h | rfl)
      · exact h
      · exact hx
  · rw [if_neg hx]
    simp

theorem nodup_insertKey {deps : List URN} (h : deps.Nodup) (x : URN) :
    (insertKey deps x).Nodup := by
  rw [insertKey]
  by_cases hx : x ∈ deps
  · rw [if_pos hx]
    exact h
  · rw [if_neg hx]
    simp [List.nodup_append, h, hx]

mutual
theorem addDependency_mem : ∀ (res : Resource) (fr : Option Resource)
    (deps : List URN) (u : URN),
    (u ∈ addDependency res fr deps ↔ u ∈ deps ∨ u ∈ specContribution fr res)
  | .mk k urn uk us i ik isc children, fr, deps, u => by
    simp only [addDependency, specContribution]
    by_cases hc : (Resource.mk k urn uk us i ik isc children).isCustom = true
    · rw [if_pos hc, if_pos hc]
      rw [mem_insertKey]
      simp [Resource.urn]
    · rw [if_neg hc, if_neg hc]
      by_cases hf : eqFrom fr (.mk k urn uk us i ik isc children) = true
      · rw [if_pos hf, if_pos hf]
        simp
      · rw [if_neg hf, if_neg hf]
        have ihl := addDependencyList_mem children fr deps u
        by_cases hk : (Resource.mk k urn uk us i ik isc children).keepDependency = true
        · rw [if_pos hk, if_pos hk]
          rw [mem_insertKey, ihl]
          simp [Resource.urn, or_assoc]
        · rw [if_neg hk, if_neg hk]
          rw [ihl]
          simp
  termination_by res _ _ _ => sizeOf res

theorem addDependencyList_mem : ∀ (children : List Resource) (fr : Option Resource)
    (deps : List URN) (u : URN),
    (u ∈ addDependencyList children fr deps ↔
      u ∈ deps ∨ u ∈ specContributionList fr children)
  | [], fr, deps, u => by
    simp only [addDependencyList, specContributionList]
    simp
  | c :: cs, fr, deps, u => by
    simp only [addDependencyList, specContributionList]
    rw [addDependencyList_mem cs fr (addDependency c fr deps) u,
        addDependency_mem c fr deps u]
    simp [or_assoc]
  termination_by cs _ _ _ => sizeOf cs
end

mutual
theorem addDependency_nodup : ∀ (res : Resource) (fr : Option Resource)
    (deps : List URN), deps.Nodup → (addDependency res fr deps).Nodup
  | .mk k urn uk us i ik isc children, fr, deps, h => by
    simp only [addDependency]
    by_cases hc : (Resource.mk k urn uk us i ik isc children).isCustom = true
    · rw [if_pos hc]
      exact nodup_insertKey h _
    · rw [if_neg hc]
      by_cases hf : eqFrom fr (.mk k urn uk us i ik isc children) = true
      · rw [if_pos hf]
        exact h
      · rw [if_neg hf]
        have ihl := addDependencyList_nodup children fr deps h
        by_cases hk : (Resource.mk k urn uk us i ik isc children).keepDependency = true
        · rw [if_pos hk]
          exact nodup_insertKey ihl _
        · rw [if_neg hk]
          exact ihl
  termination_by res _ _ => sizeOf res

theorem addDependencyList_nodup : ∀ (children : List Resource) (fr : Option Resource)
    (deps : List URN), deps.Nodup → (addDependencyList children fr deps).Nodup
  | [], _, _, h => by
    simp only [addDependencyList]
    exact h
  | c :: cs, fr, deps, h => by
    simp only [addDependencyList]
    exact addDependencyList_nodup cs fr _ (addDependency_nodup c fr deps h)
  termination_by cs _ _ => sizeOf cs
end

/-- The resources of the C1 scenario. -/
def resA : Resource := .mk .Custom "urnA" true false "idA" true false []

def resB : Resource := .mk .Custom "urnB" true false "idB" true false []

def resE : Resource := .mk .Custom "urnE" true false "idE" true false []

def resD : Resource := .mk .LocalComponent "urnD" true false "" true false [resB, resE]

def resC : Resource := .mk .LocalComponent "urnC" true false "" true false [resA, resD]

/-- C1: `expandDependencies` computes, for every list of root resources,
exactly the URN set of the recursive contribution rule of `addDependency`
with `from=nil` (`specContribution`): a Custom resource contributes its own
URN without visiting children; a non-Custom resource equal to `from`
contributes nothing; any other non-Custom resource contributes its
children's contributions and then its own URN iff it keeps dependency
(RemoteComponent, DependencyOnly, Rehydrated — not LocalComponent).  The
result is duplicate-free, and on root C (local) with children A (custom) and
D (local, children B and E, both custom) it is exactly
{URN(A), URN(B), URN(E)}. -/
theorem expandDependencies_spec :
    (∀ (roots : List Resource) (u : URN),
      u ∈ expandDependencies roots ↔ u ∈ specContributionList none roots) ∧
    (∀ roots : List Resource, (expandDependencies roots).Nodup) ∧
    expandDependencies [resC] = ["urnA", "urnB", "urnE"] := by
  refine ⟨?_, ?_, ?_⟩
  · intro roots u
    rw [expandDependencies, addDependencyList_mem]
    simp
  · intro roots
    exact addDependencyList_nodup roots none [] List.nodup_nil
  · simp [expandDependencies, resC, resA, resD, resB, resE,
      addDependencyList, addDependency, insertKey, Resource.isCustom,
      Resource.kind, Resource.keepDependency, Resource.getChildren,
      Resource.urn, eqFrom]

/-! ## C9: assertions when marshaling a Resource value -/

/-- A custom resource whose ID settled unknown (and non-secret), with a
known, non-secret URN. -/
def resUnknownID : Resource := .mk .Custom "urnX" true false "idX" false false []

/-- C9 counterexample: the claim says marshaling a CustomResource asserts
that its ID is known, but `marshalInputOptionsImpl` discards the ID's known
flag (`id, _, secretID, err := custom.ID().awaitID(...)`): on a custom
resource whose ID is unknown it raises no assertion and happily returns the
resource reference. -/
theorem marshal_resource_unknown_id_no_assert :
    marshalInputOptionsImpl (.res resUnknownID) {} false =
      .ok (.resourceReference "urnX" (some "idX") "", [resUnknownID]) := by
  simp [marshalInputOptionsImpl, resUnknownID, Resource.urnKnown, Resource.urnSecret,
    Resource.isCustom, Resource.kind, Resource.idSecret, Resource.urn, Resource.id]

/-- C9 (amended): marshaling a Resource value asserts — as a fatal
`contract.Assertf` assertion, not a returned error — that the resource's URN
is known and not secret, and, for a CustomResource, that its ID is not
secret (the ID's known flag is never asserted); under these preconditions it
returns a ResourceReference wire value (carrying the ID for custom
resources) and, unless `ExcludeResourceRefsFromDeps` is set, adds the
resource to the accumulated dependency set. -/
theorem marshal_resource_asserts (r : Resource) (opts : marshalOptions) :
    (r.urnKnown = false →
      marshalInputOptionsImpl (.res r) opts false =
        .error (.assertFail "URN must be known")) ∧
    (r.urnKnown = true → r.urnSecret = true →
      marshalInputOptionsImpl (.res r) opts false =
        .error (.assertFail "URN must not be secret")) ∧
    (r.urnKnown = true → r.urnSecret = false → r.isCustom = true →
      r.idSecret = true →
      marshalInputOptionsImpl (.res r) opts false =
        .error (.assertFail "CustomResource must not have a secret ID")) ∧
    (r.urnKnown = true → r.urnSecret = false → r.isCustom = true →
      r.idSecret = false →
      marshalInputOptionsImpl (.res r) opts false =
        .ok (.resourceReference r.urn (some r.id) "",
          if opts.ExcludeResourceRefsFromDeps then [] else [r])) ∧
    (r.urnKnown = true → r.urnSecret = false → r.isCustom = false →
      marshalInputOptionsImpl (.res r) opts false =
        .ok (.resourceReference r.urn none "",
          if opts.ExcludeResourceRefsFromDeps then [] else [r])) := by
  refine ⟨?_, ?_, ?_, ?_, ?_⟩
  · intro h1
    simp [marshalInputOptionsImpl, h1]
  · intro h1 h2
    simp [marshalInputOptionsImpl, h1, h2]
  · intro h1 h2 h3 h4
    simp [marshalInputOptionsImpl, h1, h2, h3, h4]
  · intro h1 h2 h3 h4
    by_cases hx : opts.ExcludeResourceRefsFromDeps = true
    · simp [marshalInputOptionsImpl, h1, h2, h3, h4, hx]
    · simp [marshalInputOptionsImpl, h1, h2, h3, h4, hx]
  · intro h1 h2 h3
    by_cases hx : opts.ExcludeResourceRefsFromDeps = true
    · simp [marshalInputOptionsImpl, h1, h2, h3, hx]
    · simp [marshalInputOptionsImpl, h1, h2, h3, hx]

/-- C9 witness: the assertion case at a secret-URN resource and the success
case at a well-formed custom resource. -/
theorem marshal_resource_asserts_witness :
    marshalInputOptionsImpl (.res (.mk .Custom "u" true true "i" true false [])) {} false =
      .error (.assertFail "URN must not be secret") ∧
    marshalInputOptionsImpl (.res (.mk .Custom "u" true false "i" true false [])) {} false =
      .ok (.resourceReference "u" (some "i") "",
        [.mk .Custom "u" true false "i" true false []]) := by
  constructor
  · exact (marshal_resource_asserts (.mk .Custom "u" true true "i" true false []) {}).2.1
      rfl rfl
  · have := (marshal_resource_asserts (.mk .Custom "u" true false "i" true false []) {}).2.2.2.1
      rfl rfl rfl rfl
    simpa using this

/-! ## C3: secret propagation when unmarshaling wire Outputs -/

/-- The empty registry. -/
def emptyVM : versionedMap := ⟨[]⟩

theorem unmarshalOutput_zero (pkgs mods : versionedMap) (v : PropertyValue)
    (dest : DestType) (h : unmarshalZeroCheck v = true) :
    unmarshalOutput pkgs mods v dest = .ok false := by
  rw [unmarshalOutput, if_pos h]

theorem unmarshalOutput_output_known (pkgs mods : versionedMap)
    (e : PropertyValue) (s : Bool) (d : List URN) (dest : DestType) :
    unmarshalOutput pkgs mods (.output e true s d) dest =
      match unmarshalOutput pkgs mods e (stripPtrs dest) with
      | .error err => .error err
      | .ok _ => .ok s := by
  rw [unmarshalOutput,
    if_neg (by simp [unmarshalZeroCheck, PropertyValue.IsNull,
      PropertyValue.IsComputed, PropertyValue.IsOutput, PropertyValue.outputKnown])]

theorem unmarshalOutput_str_eval (pkgs mods : versionedMap) (s : String) :
    unmarshalOutput pkgs mods (.str s) .str = .ok false := by
  rw [unmarshalOutput,
    if_neg (by simp [unmarshalZeroCheck, PropertyValue.IsNull,
      PropertyValue.IsComputed, PropertyValue.IsOutput, PropertyValue.outputKnown])]
  show unmarshalByKind pkgs mods (.str s) (stripPtrs .str) = .ok false
  rw [unmarshalByKind.eq_def]
  rfl

/-- C3 counterexample: the claim says `unmarshalOutput(p, dest)` returns a
secret result equal to `p.OutputValue().Secret` whether or not the Output is
known, but the early zero-value return
(`v.IsOutput() && !v.OutputValue().Known`) answers `false, nil` before ever
looking at the secret flag: on the unknown secret Output it returns `false`
although the wire flag is `true`. -/
theorem unmarshalOutput_unknown_secret_counterexample :
    unmarshalOutput emptyVM emptyVM (.output .null false true []) .str = .ok false ∧
    (PropertyValue.output .null false true []).outputSecret = true := by
  constructor
  · exact unmarshalOutput_zero emptyVM emptyVM _ _ (by rfl)
  · rfl

/-- C3 (amended): `unmarshalPropertyValue` always propagates the wire
Output's resolved secret flag — for unknown Outputs it returns `(nil,
secret)` without touching the element, and for known Outputs it returns the
unmarshaled element with the wire secret flag.  `unmarshalOutput`, by
contrast, propagates the wire secret flag only when `Known` is true; when
`Known` is false its early zero-value return yields `secret=false`
regardless of the wire flag. -/
theorem unmarshal_output_secret_propagation (pkgs mods : versionedMap) :
    (∀ (e : PropertyValue) (k s : Bool) (d : List URN) (r : RTValue) (b : Bool),
      unmarshalPropertyValue pkgs mods (.output e k s d) = .ok (r, b) → b = s) ∧
    (∀ (e : PropertyValue) (s : Bool) (d : List URN),
      unmarshalPropertyValue pkgs mods (.output e false s d) = .ok (.vnil, s)) ∧
    (∀ (e : PropertyValue) (k s : Bool) (d : List URN) (dest : DestType) (b : Bool),
      unmarshalOutput pkgs mods (.output e k s d) dest = .ok b →
        b = (if k then s else false)) ∧
    (∀ (e : PropertyValue) (s : Bool) (d : List URN) (dest : DestType),
      unmarshalOutput pkgs mods (.output e false s d) dest = .ok false) := by
  refine ⟨?_, ?_, ?_, ?_⟩
  · intro e k s d r b h
    cases k with
    | false =>
      simp only [unmarshalPropertyValue] at h
      simp at h
      exact h.2.symm
    | true =>
      simp only [unmarshalPropertyValue] at h
      simp only [Bool.not_true, Bool.false_eq_true, if_false] at h
      cases hrec : unmarshalPropertyValue pkgs mods e with
      | error err => rw [hrec] at h; simp at h
      | ok p =>
        rw [hrec] at h
        cases p
        simp at h
        exact h.2.symm
  · intro e s d
    simp [unmarshalPropertyValue]
  · intro e k s d dest b h
    cases k with
    | false =>
      rw [unmarshalOutput_zero pkgs mods _ dest (by rfl)] at h
      simp at h
      simp [h]
    | true =>
      rw [unmarshalOutput_output_known] at h
      cases hrec : unmarshalOutput pkgs mods e (stripPtrs dest) with
      | error err => rw [hrec] at h; simp at h
      | ok s' =>
        rw [hrec] at h
        simp at h
        simp [h.symm]
  · intro e s d dest
    exact unmarshalOutput_zero pkgs mods _ dest (by rfl)

/-- C3 witness: the amended theorem applied at a known secret Output holding
a string, for both unmarshalers, with the hypotheses discharged by
evaluation. -/
theorem unmarshal_output_secret_propagation_witness :
    ((true : Bool) = (if true then true else false)) ∧
    unmarshalPropertyValue emptyVM emptyVM (.output (.str "x") true true []) =
      .ok (.str "x", true) := by
  constructor
  · exact (unmarshal_output_secret_propagation emptyVM emptyVM).2.2.1
      (.str "x") true true [] .str true
      (by rw [unmarshalOutput_output_known]
          rw [show stripPtrs DestType.str = DestType.str from rfl,
            unmarshalOutput_str_eval])
  · have h1 := (unmarshal_output_secret_propagation emptyVM emptyVM).1
      (.str "x") true true [] (.str "x") true
    simp [unmarshalPropertyValue]

/-! ## C5: resource-reference resolution degrades to placeholders -/

/-- The `isProvider` test of `unmarshalResourceReference`. -/
def refIsProvider (ref : ResourceReference) : Bool :=
  tokenHasModuleMember (urnTypeToken ref.urn) &&
    (tokenModule (urnTypeToken ref.urn) = "pulumi:providers")

/-- The resolved lookup version of a reference: the parsed `PackageVersion`
when nonempty, the wildcard version otherwise; `none` on parse failure. -/
def refVersion (ref : ResourceReference) : Option SemVer :=
  if ref.packageVersion.length > 0 then parseTolerant ref.packageVersion
  else some nullVersion

/-- C5: `unmarshalResourceReference` never errors solely because no
constructor is registered: the only error the resolution step introduces is
the parse failure on a nonempty malformed `PackageVersion`; whenever the
version resolves and the registry lookup reports not-found, the result
degrades to a dependency placeholder — a dependency provider resource for a
provider reference, a dependency custom resource when the reference carries
an ID, and a dependency component resource otherwise. -/
theorem unmarshalResourceReference_spec (pkgs mods : versionedMap)
    (ref : ResourceReference) :
    (refVersion ref = none ↔
      (ref.packageVersion ≠ "" ∧ parseTolerant ref.packageVersion = none)) ∧
    ((∃ e, unmarshalResourceReference pkgs mods ref = .error e) ↔
      refVersion ref = none) ∧
    (∀ v, refVersion ref = some v →
      (refIsProvider ref = true →
        (pkgs.Load (tokenName (urnTypeToken ref.urn)) v).2 = false →
        unmarshalResourceReference pkgs mods ref =
          .ok (.depProvider ref.urn (ref.id.getD ""))) ∧
      (refIsProvider ref = false →
        (mods.Load (tokenModule (urnTypeToken ref.urn)) v).2 = false →
        unmarshalResourceReference pkgs mods ref =
          .ok (match ref.id with
            | some i => .depCustom ref.urn i
            | none => .depComponent ref.urn))) := by
  have hlp : ∀ t : String, 0 < t.length ↔ t ≠ "" := by
    intro t
    obtain ⟨data⟩ := t
    constructor
    · intro h he
      rw [he] at h
      simp [String.length] at h
    · intro h
      cases data with
      | nil => exact absurd rfl h
      | cons c cs => simp [String.length]
  have hver : ∀ v : SemVer, refVersion ref = some v →
      (if ref.packageVersion.length > 0 then
        match parseTolerant ref.packageVersion with
        | some w => Except.ok w
        | none => Except.error ("failed to parse provider version: " ++ ref.packageVersion)
      else (Except.ok nullVersion : Except String SemVer)) = .ok v := by
    intro v hv
    rw [refVersion] at hv
    by_cases hl : ref.packageVersion.length > 0
    · rw [if_pos hl] at hv ⊢
      rw [hv]
    · rw [if_neg hl] at hv ⊢
      cases hv
      rfl
  have hok : ∀ v : SemVer, refVersion ref = some v →
      ∃ r, unmarshalResourceReference pkgs mods ref = .ok r := by
    intro v hv
    rw [unmarshalResourceReference]
    simp only [hver v hv]
    by_cases hip : (tokenHasModuleMember (urnTypeToken ref.urn) &&
        (tokenModule (urnTypeToken ref.urn) = "pulumi:providers")) = true
    · simp only [hip, if_true]
      rcases hL : pkgs.Load (tokenName (urnTypeToken ref.urn)) v with ⟨o, b⟩
      cases o <;> cases b <;> simp
    · simp only [hip, if_false, Bool.false_eq_true]
      rcases hL : mods.Load (tokenModule (urnTypeToken ref.urn)) v with ⟨o, b⟩
      cases o <;> cases b <;> cases ref.id <;> simp
  refine ⟨?_, ?_, ?_⟩
  · rw [refVersion]
    by_cases hl : ref.packageVersion.length > 0
    · rw [if_pos hl]
      constructor
      · intro hn
        exact ⟨(hlp _).mp hl, hn⟩
      · exact fun h => h.2
    · rw [if_neg hl]
      constructor
      · intro h
        simp at h
      · rintro ⟨hne, -⟩
        exact absurd ((hlp _).mpr hne) hl
  · constructor
    · rintro ⟨e, he⟩
      cases hv : refVersion ref with
      | none => rfl
      | some v =>
        obtain ⟨r, hr⟩ := hok v hv
        rw [hr] at he
        exact absurd he (by simp)
    · intro hv
      rw [refVersion] at hv
      by_cases hl : ref.packageVersion.length > 0
      · rw [if_pos hl] at hv
        refine ⟨"failed to parse provider version: " ++ ref.packageVersion, ?_⟩
        rw [unmarshalResourceReference]
        simp only [if_pos hl, hv]
      · rw [if_neg hl] at hv
        simp at hv
  · intro v hv
    constructor
    · intro hip hfound
      rw [unmarshalResourceReference]
      simp only [hver v hv]
      rw [refIsProvider] at hip
      simp only [hip, if_true]
      rcases hL : pkgs.Load (tokenName (urnTypeToken ref.urn)) v with ⟨o, b⟩
      rw [hL] at hfound
      simp at hfound
      subst hfound
      cases o <;> simp
    · intro hip hfound
      rw [unmarshalResourceReference]
      simp only [hver v hv]
      rw [refIsProvider] at hip
      simp only [hip, Bool.false_eq_true, if_false]
      rcases hL : mods.Load (tokenModule (urnTypeToken ref.urn)) v with ⟨o, b⟩
      rw [hL] at hfound
      simp at hfound
      subst hfound
      cases o <;> cases ref.id <;> simp

/-- C5 witness: the degradation cases of `unmarshalResourceReference_spec`
at concrete references against empty registries — a custom reference with an
ID and empty version, and a provider reference at version 1.2.3. -/
theorem unmarshalResourceReference_spec_witness :
    unmarshalResourceReference emptyVM emptyVM
        ⟨"urn:pulumi:st::proj::custom:resources:Res::n", some "abc", ""⟩ =
      .ok (.depCustom "urn:pulumi:st::proj::custom:resources:Res::n" "abc") ∧
    unmarshalResourceReference emptyVM emptyVM
        ⟨"urn:pulumi:st::proj::pulumi:providers:aws::p", some "id1", "1.2.3"⟩ =
      .ok (.depProvider "urn:pulumi:st::proj::pulumi:providers:aws::p" "id1") := by
  constructor
  · have h := ((unmarshalResourceReference_spec emptyVM emptyVM
      ⟨"urn:pulumi:st::proj::custom:resources:Res::n", some "abc", ""⟩).2.2
      nullVersion (by decide)).2 (by decide) (by decide)
    simpa using h
  · have h := ((unmarshalResourceReference_spec emptyVM emptyVM
      ⟨"urn:pulumi:st::proj::pulumi:providers:aws::p", some "id1", "1.2.3"⟩).2.2
      ⟨1, 2, 3⟩ (by decide)).1 (by decide) (by decide)
    simpa using h

/-! ## C6: struct marshaling -/

theorem marshalImpl_strct (fields : List (String × InputValue))
    (opts : marshalOptions) (b : Bool) :
    marshalInputOptionsImpl (.strct fields) opts b =
      match marshalStructFields fields opts with
      | .error e => .error e
      | .ok (obj, deps) => .ok (.object obj, deps) := by
  simp only [marshalInputOptionsImpl]

theorem marshalStructFields_filter (fields : List (String × InputValue))
    (opts : marshalOptions) :
    marshalStructFields fields opts =
      marshalStructFields (fields.filter (fun f => leadingTagKey f.1 ≠ "")) opts := by
  induction fields with
  | nil => rfl
  | cons f rest ih =>
    obtain ⟨tag, v⟩ := f
    by_cases hk : leadingTagKey tag = ""
    · rw [List.filter_cons_of_neg (by simpa using hk)]
      simp only [marshalStructFields]
      rw [if_pos hk]
      exact ih
    · rw [List.filter_cons_of_pos (by simpa using hk)]
      simp only [marshalStructFields]
      rw [if_neg hk, if_neg hk, ih]

theorem marshalStructFields_no_null :
    ∀ (fields : List (String × InputValue)) (opts : marshalOptions)
      (obj : List (String × PropertyValue)) (d : List Resource),
      marshalStructFields fields opts = .ok (obj, d) →
      ∀ p ∈ obj, p.2.IsNull = false ∧
        ∃ f ∈ fields, p.1 = leadingTagKey f.1 ∧ leadingTagKey f.1 ≠ ""
  | [], opts, obj, d, h, p, hp => by
    simp only [marshalStructFields] at h
    cases h
    simp at hp
  | (tag, v) :: rest, opts, obj, d, h, p, hp => by
    simp only [marshalStructFields] at h
    by_cases hk : leadingTagKey tag = ""
    · rw [if_pos hk] at h
      obtain ⟨hnull, f, hf, hkey, hne⟩ :=
        marshalStructFields_no_null rest opts obj d h p hp
      exact ⟨hnull, f, List.mem_cons_of_mem _ hf, hkey, hne⟩
    · rw [if_neg hk] at h
      cases hm : marshalInputOptionsImpl v opts false with
      | error e => rw [hm] at h; exact absurd h (by simp)
      | ok q =>
        obtain ⟨fv, dv⟩ := q
        rw [hm] at h
        cases hrest : marshalStructFields rest opts with
        | error e => rw [hrest] at h; exact absurd h (by simp)
        | ok r =>
          obtain ⟨obj', ds⟩ := r
          rw [hrest] at h
          simp only at h
          by_cases hnv : fv.IsNull = true
          · rw [if_pos hnv] at h
            simp only [Except.ok.injEq, Prod.mk.injEq] at h
            obtain ⟨ho, -⟩ := h
            rw [← ho] at hp
            obtain ⟨hnull, f, hf, hkey, hne⟩ :=
              marshalStructFields_no_null rest opts obj' ds hrest p hp
            exact ⟨hnull, f, List.mem_cons_of_mem _ hf, hkey, hne⟩
          · rw [if_neg hnv] at h
            simp only [Except.ok.injEq, Prod.mk.injEq] at h
            obtain ⟨ho, -⟩ := h
            rw [← ho] at hp
            rcases List.mem_cons.mp hp with rfl | hp'
            · exact ⟨Bool.not_eq_true _ ▸ hnv, (tag, v), List.mem_cons_self _ _,
                rfl, hk⟩
            · obtain ⟨hnull, f, hf, hkey, hne⟩ :=
                marshalStructFields_no_null rest opts obj' ds hrest p hp'
              exact ⟨hnull, f, List.mem_cons_of_mem _ hf, hkey, hne⟩

/-- C6: only struct fields whose `pulumi` tag has a nonempty leading key
(the segment before the first comma, which becomes the wire key)
participate in marshaling — dropping the untagged fields leaves the result
unchanged — and a participating field whose marshaled value is Null is
omitted from the resulting object, whose keys are all leading tag keys.  In
particular `{A *int pulumi:"a"}` with `A=nil` marshals to an empty
PropertyMap, and `{A string pulumi:"a"}` with `A="x"` marshals to
`{"a": String("x")}` with an empty dependency list. -/
theorem marshal_struct_spec :
    (∀ (fields : List (String × InputValue)) (opts : marshalOptions) (b : Bool),
      marshalInputOptionsImpl (.strct fields) opts b =
        marshalInputOptionsImpl
          (.strct (fields.filter (fun f => leadingTagKey f.1 ≠ ""))) opts b) ∧
    (∀ (fields : List (String × InputValue)) (opts : marshalOptions)
      (obj : List (String × PropertyValue)) (d : List Resource),
      marshalInputOptionsImpl (.strct fields) opts false = .ok (.object obj, d) →
      ∀ p ∈ obj, p.2.IsNull = false ∧
        ∃ f ∈ fields, p.1 = leadingTagKey f.1 ∧ leadingTagKey f.1 ≠ "") ∧
    marshalInputsOptions (some (.strct [("a", .ptr none)])) {} = .ok ([], [], []) ∧
    marshalInputsOptions (some (.strct [("a", .str "x")])) {} =
      .ok ([("a", .str "x")], [("a", [])], []) := by
  refine ⟨?_, ?_, ?_, ?_⟩
  · intro fields opts b
    rw [marshalImpl_strct, marshalImpl_strct, marshalStructFields_filter]
  · intro fields opts obj d h
    rw [marshalImpl_strct] at h
    cases hs : marshalStructFields fields opts with
    | error e => rw [hs] at h; exact absurd h (by simp)
    | ok r =>
      obtain ⟨obj', ds⟩ := r
      rw [hs] at h
      simp only [Except.ok.injEq, Prod.mk.injEq, PropertyValue.object.injEq] at h
      obtain ⟨h1, h2⟩ := h
      rw [← h1]
      exact marshalStructFields_no_null fields opts obj' ds hs
  · simp [marshalInputsOptions, marshalStructProps, marshalProperty,
      marshalInputOptions, marshalInputOptionsImpl, leadingTagKey, splitString,
      splitOnChar, expandDependencies, addDependencyList, wrapPropertyErr,
      PropertyValue.IsNull]
  · simp [marshalInputsOptions, marshalStructProps, marshalProperty,
      marshalInputOptions, marshalInputOptionsImpl, leadingTagKey, splitString,
      splitOnChar, expandDependencies, addDependencyList, wrapPropertyErr,
      PropertyValue.IsNull]

/-- C6 witness: the null-omission part applied to a two-field struct whose
first field is an untagged skipped field and whose second marshals to a
string. -/
theorem marshal_struct_spec_witness :
    ∀ p ∈ [("b", PropertyValue.str "y")], p.2.IsNull = false ∧
      ∃ f ∈ [("", InputValue.str "skipped"), ("b", InputValue.str "y")],
        p.1 = leadingTagKey f.1 ∧ leadingTagKey f.1 ≠ "" := by
  refine marshal_struct_spec.2.1
    [("", InputValue.str "skipped"), ("b", InputValue.str "y")] {} _ [] ?_
  simp [marshalImpl_strct, marshalStructFields, marshalInputOptionsImpl,
    leadingTagKey, splitString, splitOnChar, PropertyValue.IsNull]

/-! ## C10: top-level properties with Null values and dependencies -/

theorem marshalProperty_spec (pname : String) (pv : InputValue)
    (opts : marshalOptions) (acc : MarshalAcc) (v : PropertyValue)
    (rdeps : List Resource)
    (h : marshalInputOptions pv opts = .ok (v, rdeps)) :
    marshalProperty pname pv opts acc =
      .ok (if v.IsNull = true ∧ expandDependencies rdeps = []
        then (acc.1, acc.2.1, (expandDependencies rdeps).foldl insertKey acc.2.2)
        else (acc.1 ++ [(pname, v)],
          acc.2.1 ++ [(pname, expandDependencies rdeps)],
          (expandDependencies rdeps).foldl insertKey acc.2.2)) := by
  rw [marshalProperty, h]
  by_cases hc : v.IsNull = true ∧ expandDependencies rdeps = []
  · rw [if_pos hc]
    have hb : (!v.IsNull || !(expandDependencies rdeps).isEmpty) = false := by
      simp [hc.1, hc.2]
    simp only [hb, Bool.false_eq_true, if_false]
  · rw [if_neg hc]
    have hb : (!v.IsNull || !(expandDependencies rdeps).isEmpty) = true := by
      rcases Decidable.not_and_iff_or_not.mp hc with hn | hn
      · simp [Bool.not_eq_true _ ▸ hn]
      · simp [List.isEmpty_iff, hn]
    simp only [hb, if_true]

/-- C10: in `marshalInputsOptions` a top-level property whose marshaled
value is Null is still recorded in the property map and the per-property
dependency map whenever its expanded dependency set is non-empty; a
top-level property is dropped from both exactly when its value is Null and
it contributed no dependencies (the aggregate dependency set is updated
either way). -/
theorem marshalInputsOptions_null_property (pname : String) (pv : InputValue)
    (opts : marshalOptions) (v : PropertyValue) (rdeps : List Resource)
    (h : marshalInputOptions pv opts = .ok (v, rdeps)) :
    marshalInputsOptions (some (.map [(pname, pv)])) opts =
      .ok (if v.IsNull = true ∧ expandDependencies rdeps = []
        then ([], [], (expandDependencies rdeps).foldl insertKey [])
        else ([(pname, v)], [(pname, expandDependencies rdeps)],
          (expandDependencies rdeps).foldl insertKey [])) := by
  rw [marshalInputsOptions]
  rw [show marshalMapProps [(pname, pv)] opts ([], [], []) =
      match marshalProperty pname pv opts ([], [], []) with
      | .error e => .error e
      | .ok acc' => marshalMapProps [] opts acc' from rfl]
  rw [marshalProperty_spec pname pv opts ([], [], []) v rdeps h]
  by_cases hc : v.IsNull = true ∧ expandDependencies rdeps = []
  · rw [if_pos hc, if_pos hc]
    rfl
  · rw [if_neg hc, if_neg hc]
    rfl

/-- C10 witness: a nil-valued property is dropped while a string-valued
property is kept with an empty per-property dependency list. -/
theorem marshalInputsOptions_null_property_witness :
    marshalInputsOptions (some (.map [("p", .vnil)])) {} = .ok ([], [], []) ∧
    marshalInputsOptions (some (.map [("q", .str "x")])) {} =
      .ok ([("q", .str "x")], [("q", [])], []) := by
  constructor
  · have h := marshalInputsOptions_null_property "p" .vnil {} .null []
      (by simp [marshalInputOptions, marshalInputOptionsImpl])
    simpa [expandDependencies, addDependencyList, PropertyValue.IsNull] using h
  · have h := marshalInputsOptions_null_property "q" (.str "x") {} (.str "x") []
      (by simp [marshalInputOptions, marshalInputOptionsImpl])
    simpa [expandDependencies, addDependencyList, PropertyValue.IsNull] using h

/-! ## C2: marshaling Output values -/

theorem depIf_eq_sort (l : List URN) :
    (if !l.isEmpty then sortURNs l else []) = sortURNs l := by
  cases l with
  | nil => simp [sortURNs, List.insertionSort]
  | cons h t => simp

/-- C2: marshaling an Output (with `ErrorOnOutput` unset) awaits it; a
known, non-secret Output with no dependencies marshals to its resolved
element directly, with no wrapper and no reported dependencies; in every
other non-error case the result is a `PropertyValue.Output` whose Known and
Secret fields equal the awaited flags (the element being the recursively
marshaled value when known, Null otherwise) and whose Dependencies field is
the expanded dependency set of the Output's dependency resources, sorted —
duplicate-free and increasing in the string order. -/
theorem marshal_output_spec (e : InputValue) (k s : Bool) (dres : List Resource)
    (opts : marshalOptions) (h : opts.ErrorOnOutput = false) :
    (k = true → s = false → dres = [] →
      marshalInputOptionsImpl (.output e k s dres none) opts false =
        (match marshalInputOptionsImpl e opts true with
          | .error err => .error err
          | .ok (pv, _) => .ok (pv, []))) ∧
    (∀ pv d, marshalInputOptionsImpl e opts true = .ok (pv, d) →
      ¬(s = false ∧ dres = []) → k = true →
      marshalInputOptionsImpl (.output e k s dres none) opts false =
        .ok (.output pv true s (sortURNs (expandDependencies dres)), dres)) ∧
    (k = false →
      marshalInputOptionsImpl (.output e k s dres none) opts false =
        .ok (.output .null false s (sortURNs (expandDependencies dres)), dres)) ∧
    List.Pairwise (fun a b => stringLe a b = true ∧ a ≠ b)
      (sortURNs (expandDependencies dres)) ∧
    (∀ u, u ∈ sortURNs (expandDependencies dres) ↔ u ∈ expandDependencies dres) := by
  refine ⟨?_, ?_, ?_, ?_, ?_⟩
  · intro hk hs hd
    subst hk
    subst hs
    subst hd
    cases hrec : marshalInputOptionsImpl e opts true with
    | error err => simp [marshalInputOptionsImpl, h, hrec]
    | ok q =>
      obtain ⟨pv, d⟩ := q
      simp [marshalInputOptionsImpl, h, hrec]
  · intro pv d hrec hns hk
    subst hk
    have hcond : (true && !s && dres.isEmpty) = false := by
      cases s with
      | true => simp
      | false =>
        have : dres ≠ [] := fun hd => hns ⟨rfl, hd⟩
        simp [List.isEmpty_iff, this]
    simp [marshalInputOptionsImpl, h, hrec, hcond, depIf_eq_sort]
    have hcond' : ¬((true && !s && dres.isEmpty) = true) := by
      rw [hcond]
      simp
    rw [if_neg hcond']
    by_cases hd : expandDependencies dres = []
    · simp [hd, sortURNs, List.insertionSort]
    · simp [hd]
  · intro hk
    subst hk
    simp [marshalInputOptionsImpl, h, depIf_eq_sort]
    intro hd
    rw [hd]
    rfl
  · have hnd : (expandDependencies dres).Nodup :=
      addDependencyList_nodup dres none [] List.nodup_nil
    have hsorted : List.Sorted (fun a b => stringLe a b = true)
        (sortURNs (expandDependencies dres)) :=
      List.sorted_insertionSort _ _
    have hnd' : (sortURNs (expandDependencies dres)).Nodup :=
      ((List.perm_insertionSort _ _).nodup_iff).mpr hnd
    exact hsorted.and hnd'
  · intro u
    exact (List.perm_insertionSort _ _).mem_iff

/-- C2 witness: a secret Output resolved to a string with no dependencies
wraps with Known/Secret set and empty Dependencies, and an unknown Output
over one custom resource dependency wraps with that resource's URN. -/
theorem marshal_output_spec_witness :
    marshalInputOptionsImpl (.output (.str "x") true true [] none) {} false =
      .ok (.output (.str "x") true true [], []) ∧
    marshalInputOptionsImpl
        (.output .vnil false false [.mk .Custom "urnZ" true false "z" true false []] none)
        {} false =
      .ok (.output .null false false ["urnZ"],
        [.mk .Custom "urnZ" true false "z" true false []]) := by
  constructor
  · have h := (marshal_output_spec (.str "x") true true [] {} rfl).2.1
      (.str "x") [] (by simp [marshalInputOptionsImpl]) (by simp) rfl
    simpa [sortURNs, expandDependencies, addDependencyList,
      List.insertionSort] using h
  · have h := (marshal_output_spec .vnil false false
      [.mk .Custom "urnZ" true false "z" true false []] {} rfl).2.2.1 rfl
    simpa [sortURNs, expandDependencies, addDependencyList, addDependency,
      insertKey, Resource.isCustom, Resource.kind, Resource.urn,
      List.insertionSort] using h

/-! ## C8: ErrorOnOutput -/

mutual
theorem marshalImpl_err_not_cannotAwait :
    ∀ (v : InputValue) (opts : marshalOptions) (b : Bool) (err : MErr),
      opts.ErrorOnOutput = false →
      marshalInputOptionsImpl v opts b = .error err → err ≠ .cannotAwait
  | .output e k s dres aerr, opts, false, err, h, heq => by
    cases aerr with
    | some m =>
      simp [marshalInputOptionsImpl, h] at heq
      simp [← heq]
    | none =>
      cases k with
      | false =>
        simp [marshalInputOptionsImpl, h] at heq
      | true =>
        cases hrec : marshalInputOptionsImpl e opts true with
        | error e' =>
          have := marshalImpl_err_not_cannotAwait e opts true e' h hrec
          simp [marshalInputOptionsImpl, h, hrec] at heq
          simp [← heq]
          exact this
        | ok q =>
          obtain ⟨pv, d⟩ := q
          simp [marshalInputOptionsImpl, h, hrec] at heq
          by_cases hc : (true && !s && dres.isEmpty) = true
          · rw [if_pos hc] at heq
            simp at heq
          · rw [if_neg hc] at heq
            simp at heq
  | .output e k s dres aerr, opts, true, err, h, heq => by
    simp only [marshalInputOptionsImpl] at heq
    simp at heq
    simp [← heq]
  | .vnil, opts, b, err, h, heq => by
    simp [marshalInputOptionsImpl] at heq
  | .ptr none, opts, b, err, h, heq => by
    simp [marshalInputOptionsImpl] at heq
  | .res r, opts, b, err, h, heq => by
    simp only [marshalInputOptionsImpl] at heq
    by_cases h1 : r.urnKnown = true
    · rw [if_neg (by simp [h1])] at heq
      by_cases h2 : r.urnSecret = true
      · rw [if_pos h2] at heq
        simp at heq
        simp [← heq]
      · rw [if_neg h2] at heq
        by_cases h3 : r.isCustom = true
        · rw [if_pos h3] at heq
          by_cases h4 : r.idSecret = true
          · rw [if_pos h4] at heq
            simp at heq
            simp [← heq]
          · rw [if_neg h4] at heq
            simp at heq
        · rw [if_neg h3] at heq
          simp at heq
    · rw [if_pos (by simpa using h1)] at heq
      simp at heq
      simp [← heq]
  | .bool _, opts, b, err, h, heq => by
    simp [marshalInputOptionsImpl] at heq
  | .int _, opts, b, err, h, heq => by
    simp [marshalInputOptionsImpl] at heq
  | .str _, opts, b, err, h, heq => by
    simp [marshalInputOptionsImpl] at heq
  | .ptr (some v), opts, b, err, h, heq => by
    simp only [marshalInputOptionsImpl] at heq
    exact marshalImpl_err_not_cannotAwait v opts false err h heq
  | .array xs, opts, b, err, h, heq => by
    simp only [marshalInputOptionsImpl] at heq
    cases hrec : marshalArrayElems xs opts with
    | error e' =>
      rw [hrec] at heq
      simp at heq
      simp [← heq]
      exact marshalArrayElems_err_not_cannotAwait xs opts e' h hrec
    | ok q =>
      obtain ⟨arr, d⟩ := q
      rw [hrec] at heq
      simp at heq
  | .map entries, opts, b, err, h, heq => by
    simp only [marshalInputOptionsImpl] at heq
    cases hrec : marshalMapEntries entries opts with
    | error e' =>
      rw [hrec] at heq
      simp at heq
      simp [← heq]
      exact marshalMapEntries_err_not_cannotAwait entries opts e' h hrec
    | ok q =>
      obtain ⟨obj, d⟩ := q
      rw [hrec] at heq
      simp at heq
  | .strct fields, opts, b, err, h, heq => by
    simp only [marshalInputOptionsImpl] at heq
    cases hrec : marshalStructFields fields opts with
    | error e' =>
      rw [hrec] at heq
      simp at heq
      simp [← heq]
      exact marshalStructFields_err_not_cannotAwait fields opts e' h hrec
    | ok q =>
      obtain ⟨obj, d⟩ := q
      rw [hrec] at heq
      simp at heq
  termination_by v _ _ _ _ _ => sizeOf v

theorem marshalArrayElems_err_not_cannotAwait :
    ∀ (xs : List InputValue) (opts : marshalOptions) (err : MErr),
      opts.ErrorOnOutput = false →
      marshalArrayElems xs opts = .error err → err ≠ .cannotAwait
  | [], opts, err, h, heq => by
    simp [marshalArrayElems] at heq
  | x :: xs, opts, err, h, heq => by
    simp only [marshalArrayElems] at heq
    cases hx : marshalInputOptionsImpl x opts false with
    | error e' =>
      rw [hx] at heq
      simp at heq
      simp [← heq]
      exact marshalImpl_err_not_cannotAwait x opts false e' h hx
    | ok q =>
      obtain ⟨pv, d⟩ := q
      rw [hx] at heq
      cases hrest : marshalArrayElems xs opts with
      | error e' =>
        rw [hrest] at heq
        simp at heq
        simp [← heq]
        exact marshalArrayElems_err_not_cannotAwait xs opts e' h hrest
      | ok r =>
        rw [hrest] at heq
        simp at heq
  termination_by xs _ _ _ _ => sizeOf xs

theorem marshalMapEntries_err_not_cannotAwait :
    ∀ (entries : List (String × InputValue)) (opts : marshalOptions) (err : MErr),
      opts.ErrorOnOutput = false →
      marshalMapEntries entries opts = .error err → err ≠ .cannotAwait
  | [], opts, err, h, heq => by
    simp [marshalMapEntries] at heq
  | (k, v) :: rest, opts, err, h, heq => by
    simp only [marshalMapEntries] at heq
    cases hx : marshalInputOptionsImpl v opts false with
    | error e' =>
      rw [hx] at heq
      simp at heq
      simp [← heq]
      exact marshalImpl_err_not_cannotAwait v opts false e' h hx
    | ok q =>
      obtain ⟨pv, d⟩ := q
      rw [hx] at heq
      cases hrest : marshalMapEntries rest opts with
      | error e' =>
        rw [hrest] at heq
        simp at heq
        simp [← heq]
        exact marshalMapEntries_err_not_cannotAwait rest opts e' h hrest
      | ok r =>
        rw [hrest] at heq
        simp at heq
  termination_by entries _ _ _ _ => sizeOf entries

theorem marshalStructFields_err_not_cannotAwait :
    ∀ (fields : List (String × InputValue)) (opts : marshalOptions) (err : MErr),
      opts.ErrorOnOutput = false →
      marshalStructFields fields opts = .error err → err ≠ .cannotAwait
  | [], opts, err, h, heq => by
    simp [marshalStructFields] at heq
  | (tag, v) :: rest, opts, err, h, heq => by
    simp only [marshalStructFields] at heq
    by_cases hk : leadingTagKey tag = ""
    · rw [if_pos hk] at heq
      exact marshalStructFields_err_not_cannotAwait rest opts err h heq
    · rw [if_neg hk] at heq
      cases hx : marshalInputOptionsImpl v opts false with
      | error e' =>
        rw [hx] at heq
        simp at heq
        simp [← heq]
        exact marshalImpl_err_not_cannotAwait v opts false e' h hx
      | ok q =>
        obtain ⟨pv, d⟩ := q
        rw [hx] at heq
        cases hrest : marshalStructFields rest opts with
        | error e' =>
          rw [hrest] at heq
          simp at heq
          simp [← heq]
          exact marshalStructFields_err_not_cannotAwait rest opts e' h hrest
        | ok r =>
          rw [hrest] at heq
          simp at heq
  termination_by fields _ _ _ _ => sizeOf fields
end

/-- C8: with `ErrorOnOutput` set, marshaling any Output value fails with the
`cannotAwaitFmt` error — whose Go rendering names the offending value's
dynamic type via `%T` — and the Output is never awaited: the error is the
same whatever the awaited value, flags, dependencies, or rejection error
are.  With `ErrorOnOutput` unset, no input value ever produces this error. -/
theorem marshal_error_on_output_spec :
    (∀ (e : InputValue) (k s : Bool) (d : List Resource) (aerr : Option String)
      (opts : marshalOptions), opts.ErrorOnOutput = true →
      marshalInputOptionsImpl (.output e k s d aerr) opts false =
        .error .cannotAwait) ∧
    (∀ (v : InputValue) (opts : marshalOptions) (b : Bool),
      opts.ErrorOnOutput = false →
      marshalInputOptionsImpl v opts b ≠ .error .cannotAwait) := by
  constructor
  · intro e k s d aerr opts h
    cases aerr <;> simp [marshalInputOptionsImpl, h]
  · intro v opts b h heq
    exact marshalImpl_err_not_cannotAwait v opts b .cannotAwait h heq rfl

/-- C8 witness: a known Output value errors with `cannotAwait` under
`ErrorOnOutput` and marshals fine without it. -/
theorem marshal_error_on_output_spec_witness :
    marshalInputOptionsImpl (.output (.str "x") true false [] none)
        ⟨true, false⟩ false = .error .cannotAwait ∧
    marshalInputOptionsImpl (.output (.str "x") true false [] none) {} false ≠
      .error .cannotAwait := by
  constructor
  · exact marshal_error_on_output_spec.1 (.str "x") true false [] none ⟨true, false⟩ rfl
  · exact marshal_error_on_output_spec.2 (.output (.str "x") true false [] none) {} false rfl

end PulumiRPC
